import Mathlib

/-!
Verification of the mmdbconvert streaming merge engine.

This file gives a shallow embedding, in Lean 4, of the core of the
mmdbconvert repository (Go): the mmdbtype data model used for column data,
IP address arithmetic from the network package, the range-to-CIDR
decomposition used when flushing, the streaming accumulator
(internal/merger/accumulator.go), the split row writer
(internal/writer/split.go), the IP-version validator and merger
construction (internal/merger/merger.go), the record walker (walkPath) and
the nested-output builder (internal/writer/mmdb.go).  Theorems at the end
settle the behavioural claims about these components.
-/

namespace MC

/-! ## Data model: mmdbtype values

Model of mmdbtype.DataType from github.com/maxmind/mmdbwriter/mmdbtype as
used by the engine.  Maps (Go map of String to DataType) are modelled as
association lists; Go guarantees unique keys, which appears as a Nodup
hypothesis where it matters.  Floating point scalars are not modelled (no
claim touches them); the scalar constructors kept are the ones the claims
exercise. -/

inductive DataType where
  | B (b : Bool)
  | S (s : String)
  | U (n : Nat)
  | M (entries : List (String × DataType))
  | L (xs : List DataType)

/-- Column data handed to the accumulator: mmdbtype.Map. -/
abbrev MMap := List (String × DataType)

/-- Go type name of a value as printed by the %T verb in fmt.Errorf. -/
def goTypeName : DataType → String
  | .B _ => "mmdbtype.Bool"
  | .S _ => "mmdbtype.String"
  | .U _ => "mmdbtype.Uint64"
  | .M _ => "mmdbtype.Map"
  | .L _ => "mmdbtype.Slice"

/-- Lookup in a Go map modelled as an association list (first match). -/
def lookupA (m : MMap) (k : String) : Option DataType :=
  match m with
  | [] => none
  | (k2, v) :: rest => if k2 == k then some v else lookupA rest k

/-- Go map assignment: replace the binding of k if present, else append. -/
def insertA (m : MMap) (k : String) (v : DataType) : MMap :=
  match m with
  | [] => [(k, v)]
  | (k2, w) :: rest => if k2 == k then (k, v) :: rest else (k2, w) :: insertA rest k v

mutual

/-- Nesting depth of a value (1 for scalars). -/
def dtDepth : DataType → Nat
  | .B _ => 1
  | .S _ => 1
  | .U _ => 1
  | .M es => 1 + mDepth es
  | .L xs => 1 + lDepth xs
termination_by structural x => x

/-- Largest nesting depth among the values of a binding list. -/
def mDepth : List (String × DataType) → Nat
  | [] => 0
  | (_, v) :: rest => max (dtDepth v) (mDepth rest)
termination_by structural x => x

/-- Largest nesting depth among the elements of a slice. -/
def lDepth : List DataType → Nat
  | [] => 0
  | v :: rest => max (dtDepth v) (lDepth rest)
termination_by structural x => x

end

/-- Some binding of the list has this key and a value accepted by the
comparator (the unordered membership test of map equality). -/
def mHasV (f : DataType → DataType → Bool) (k : String) (v : DataType) :
    List (String × DataType) → Bool
  | [] => false
  | (k2, w) :: rest => (k == k2 && f v w) || mHasV f k v rest

/-- Every binding of the first list has a matching binding in the second,
as judged by the comparator. -/
def mSubV (f : DataType → DataType → Bool) :
    List (String × DataType) → List (String × DataType) → Bool
  | [], _ => true
  | (k, v) :: rest, ys => mHasV f k v ys && mSubV f rest ys

/-- Elementwise comparison of slices by the comparator. -/
def lEqV (f : DataType → DataType → Bool) : List DataType → List DataType → Bool
  | [], [] => true
  | x :: xs, y :: ys => f x y && lEqV f xs ys
  | _, _ => false

/-- Fuelled deep structural equality; the fuel bounds the nesting depth
descended into, so any fuel of at least the first argument's depth gives
the true deep equality. -/
def dtEqualF : Nat → DataType → DataType → Bool
  | 0, _, _ => false
  | _ + 1, .B a, .B b => a == b
  | _ + 1, .S a, .S b => a == b
  | _ + 1, .U a, .U b => a == b
  | fuel + 1, .M a, .M b => a.length == b.length && mSubV (dtEqualF fuel) a b
  | fuel + 1, .L a, .L b => lEqV (dtEqualF fuel) a b
  | _ + 1, _, _ => false

/-- Deep structural equality, modelling mmdbtype DataType.Equal: maps are
compared unordered (same size and every binding of the left map present,
deeply equal, in the right map); slices elementwise; scalars directly.
The depth of the left value always suffices as fuel, since every descent
goes one level down into it, so this is the total deep equality.  Under
the unique-key guarantee of Go maps the membership test coincides with the
lookup-based comparison the library performs. -/
def dtEqual (a b : DataType) : Bool := dtEqualF (dtDepth a) a b

/-- Equality of two column-data maps, modelling dataEquals in
accumulator.go, which calls mmdbtype Map.Equal. -/
def mapEqual (a b : MMap) : Bool := dtEqual (.M a) (.M b)

/-! ## IP addresses

Model of net/netip Addr.  Go netip distinguishes the 4-byte IPv4 form
(Is4 true) from 16-byte IPv6 addresses, including IPv4-mapped 4-in-6
addresses (Is4 false).  An address is a version tag plus its numeric
value; 4-in-6 addresses are v6 values in the mapped range. -/

inductive IPAddr where
  | v4 (val : Nat)
  | v6 (val : Nat)
deriving DecidableEq

/-- Addr.Is4: true only for the 4-byte form. -/
def IPAddr.is4 : IPAddr → Bool
  | .v4 _ => true
  | .v6 _ => false

/-- Numeric value of an address. -/
def IPAddr.val : IPAddr → Nat
  | .v4 v => v
  | .v6 v => v

/-- Addr.Next: the following address of the same family, or none (the zero
Addr in Go) when the address is the final one of its family. -/
def IPAddr.next : IPAddr → Option IPAddr
  | .v4 v => if v + 1 < 2 ^ 32 then some (.v4 (v + 1)) else none
  | .v6 v => if v + 1 < 2 ^ 128 then some (.v6 (v + 1)) else none

/-- Model of IPv4ToUint32 from the network package: big-endian uint32 value
of an IPv4 address.  The Go function panics on non-IPv4 input; its callers
only reach it under an Is4 guard, and the v6 value here is irrelevant junk. -/
def IPv4ToUint32 : IPAddr → Nat
  | .v4 v => v % 2 ^ 32
  | .v6 _ => 0

/-- Model of IsAdjacent from internal/network (src/unnamed/part_005): both
addresses of the same family and the second is Next of the first. -/
def IsAdjacent (endIP startIP : IPAddr) : Bool :=
  if endIP.is4 != startIP.is4 then false
  else endIP.next == some startIP

/-- Model of the other IsAdjacent variant in the repository (the network
package copy accompanying internal/writer/split.go): the IPv4 branch
compares end+1 with start in uint32 arithmetic, which wraps around at
255.255.255.255; the IPv6 branch uses Next as above. -/
def IsAdjacentU32 (endIP startIP : IPAddr) : Bool :=
  if endIP.is4 != startIP.is4 then false
  else if endIP.is4 then (IPv4ToUint32 endIP + 1) % 2 ^ 32 == IPv4ToUint32 startIP
  else endIP.next == some startIP

/-- IsAdjacent holds exactly when the start address is the immediate
successor of the end address in its family. -/
theorem IsAdjacent_iff_next (e s : IPAddr) : IsAdjacent e s = true ↔ e.next = some s := by
  constructor
  · intro h
    unfold IsAdjacent at h
    split at h
    · exact absurd h (by simp)
    · exact eq_of_beq h
  · intro h
    unfold IsAdjacent
    have hv : e.is4 = s.is4 := by
      cases e <;> cases s <;> simp_all [IPAddr.next, IPAddr.is4]
    rw [hv]
    simp [h]

/-! ## Range to CIDR decomposition

The accumulator and the split writer decompose an inclusive address range
into the canonical minimal list of CIDR blocks (netipx IPRange.Prefixes).
The embedding computes it greedily from the left: at lo, take the largest
2-power block aligned at lo that stays within hi.  All recursions are
fuelled structurally so that every definition evaluates by kernel
reduction. -/

/-- Fuelled floor of the base-2 logarithm (0 for n below 2). -/
def log2F : Nat → Nat → Nat
  | 0, _ => 0
  | fuel + 1, n => if n ≤ 1 then 0 else log2F fuel (n / 2) + 1

/-- Floor of the base-2 logarithm. -/
def floorLog2 (n : Nat) : Nat := log2F n n

theorem log2F_lt (fuel : Nat) : ∀ n, n ≤ fuel → n < 2 ^ (log2F fuel n + 1) := by
  induction fuel with
  | zero => intro n h; interval_cases n; simp [log2F]
  | succ f ih =>
    intro n h
    unfold log2F
    split
    · omega
    · have h2 : n / 2 ≤ f := by omega
      have := ih (n / 2) h2
      have hpow : 2 ^ (log2F f (n / 2) + 1 + 1) = 2 * 2 ^ (log2F f (n / 2) + 1) := by
        ring
      omega

theorem floorLog2_lt (n : Nat) : n < 2 ^ (floorLog2 n + 1) :=
  log2F_lt n n (Nat.le_refl n)

theorem le_floorLog2 (j m : Nat) (h : 2 ^ j ≤ m) : j ≤ floorLog2 m := by
  by_contra hc
  have hj : floorLog2 m + 1 ≤ j := by omega
  have := floorLog2_lt m
  have : (2 : Nat) ^ (floorLog2 m + 1) ≤ 2 ^ j := Nat.pow_le_pow_right (by omega) hj
  omega

/-- Largest k at most k0 such that lo is aligned to 2 to the k and the
block of that size starting at lo fits within hi inclusive (k = 0 always
qualifies when lo is at most hi). -/
def maxBlockDown (lo hi : Nat) : Nat → Nat
  | 0 => 0
  | k + 1 =>
    if lo % 2 ^ (k + 1) = 0 ∧ lo + 2 ^ (k + 1) ≤ hi + 1 then k + 1
    else maxBlockDown lo hi k

/-- Size exponent of the greedy block at lo for the range lo..hi. -/
def maxBlockK (lo hi : Nat) : Nat := maxBlockDown lo hi (floorLog2 (hi + 1 - lo))

theorem maxBlockDown_valid (lo hi : Nat) (h : lo ≤ hi) :
    ∀ k0, lo % 2 ^ maxBlockDown lo hi k0 = 0 ∧ lo + 2 ^ maxBlockDown lo hi k0 ≤ hi + 1 := by
  intro k0
  induction k0 with
  | zero => simp [maxBlockDown]; omega
  | succ k ih =>
    unfold maxBlockDown
    split
    · assumption
    · exact ih

theorem maxBlockDown_ge (lo hi : Nat) :
    ∀ k0 j, j ≤ k0 → lo % 2 ^ j = 0 → lo + 2 ^ j ≤ hi + 1 → j ≤ maxBlockDown lo hi k0 := by
  intro k0
  induction k0 with
  | zero => intro j hj _ _; omega
  | succ k ih =>
    intro j hj ha hf
    unfold maxBlockDown
    split
    · omega
    · rename_i hcond
      have hjk : j ≤ k := by
        by_contra hgt
        have hj1 : j = k + 1 := by omega
        subst hj1
        exact hcond ⟨ha, hf⟩
      exact ih j hjk ha hf

theorem maxBlockK_valid (lo hi : Nat) (h : lo ≤ hi) :
    lo % 2 ^ maxBlockK lo hi = 0 ∧ lo + 2 ^ maxBlockK lo hi ≤ hi + 1 :=
  maxBlockDown_valid lo hi h _

theorem maxBlockK_ge (lo hi j : Nat) (h : lo ≤ hi)
    (ha : lo % 2 ^ j = 0) (hf : lo + 2 ^ j ≤ hi + 1) : j ≤ maxBlockK lo hi := by
  have hje : 2 ^ j ≤ hi + 1 - lo := by omega
  exact maxBlockDown_ge lo hi _ j (le_floorLog2 j _ hje) ha hf

/-- Fuelled greedy decomposition of lo..hi (inclusive) into aligned blocks;
each list entry (b, k) is the block of the 2 to the k addresses starting
at b. -/
def rangeCidrsF : Nat → Nat → Nat → List (Nat × Nat)
  | 0, _, _ => []
  | fuel + 1, lo, hi =>
    if lo ≤ hi then
      (lo, maxBlockK lo hi) :: rangeCidrsF fuel (lo + 2 ^ maxBlockK lo hi) hi
    else []

/-- Greedy decomposition of the inclusive range lo..hi into the canonical
minimal list of aligned blocks, in ascending order (model of
netipx IPRange.Prefixes on address values). -/
def rangeCidrs (lo hi : Nat) : List (Nat × Nat) := rangeCidrsF (hi + 1 - lo) lo hi

theorem rangeCidrsF_congr :
    ∀ f1 f2 lo hi, hi + 1 - lo ≤ f1 → hi + 1 - lo ≤ f2 →
      rangeCidrsF f1 lo hi = rangeCidrsF f2 lo hi := by
  intro f1
  induction f1 with
  | zero =>
    intro f2 lo hi h1 _
    have : ¬ lo ≤ hi := by omega
    cases f2 <;> simp [rangeCidrsF, this]
  | succ f ih =>
    intro f2 lo hi h1 h2
    by_cases hle : lo ≤ hi
    · have hp : 0 < 2 ^ maxBlockK lo hi := Nat.pos_pow_of_pos _ (by omega)
      cases f2 with
      | zero => omega
      | succ g =>
        simp only [rangeCidrsF, if_pos hle]
        have := ih g (lo + 2 ^ maxBlockK lo hi) hi (by omega) (by omega)
        rw [this]
    · cases f2 <;> simp [rangeCidrsF, hle]

theorem rangeCidrs_eq (lo hi : Nat) :
    rangeCidrs lo hi =
      if lo ≤ hi then
        (lo, maxBlockK lo hi) :: rangeCidrs (lo + 2 ^ maxBlockK lo hi) hi
      else [] := by
  by_cases hle : lo ≤ hi
  · have h1 : hi + 1 - lo = (hi - lo) + 1 := by omega
    have hp : 0 < 2 ^ maxBlockK lo hi := Nat.pos_pow_of_pos _ (by omega)
    simp only [rangeCidrs, h1, rangeCidrsF, if_pos hle]
    have := rangeCidrsF_congr (hi - lo) (hi + 1 - (lo + 2 ^ maxBlockK lo hi))
      (lo + 2 ^ maxBlockK lo hi) hi (by omega) (by omega)
    rw [this]
  · have h1 : hi + 1 - lo = 0 := by omega
    simp [rangeCidrs, h1, rangeCidrsF, hle]

/-- The blocks tile the half-open interval from lo to stop in order:
each block starts exactly where the previous one ended. -/
def consecBlocks : Nat → Nat → List (Nat × Nat) → Prop
  | lo, stop, [] => lo = stop
  | lo, stop, (b, k) :: rest => b = lo ∧ consecBlocks (lo + 2 ^ k) stop rest

theorem consecBlocks_le {stop : Nat} :
    ∀ l lo, consecBlocks lo stop l → lo ≤ stop := by
  intro l
  induction l with
  | nil => intro lo h; exact Nat.le_of_eq h
  | cons bk rest ih =>
    intro lo h
    obtain ⟨b, k⟩ := bk
    obtain ⟨_, h2⟩ := h
    have := ih _ h2
    have hp : 0 < 2 ^ k := Nat.pos_pow_of_pos _ (by omega)
    omega

theorem rangeCidrs_consec :
    ∀ fuel lo hi, hi + 1 - lo ≤ fuel → lo ≤ hi →
      consecBlocks lo (hi + 1) (rangeCidrs lo hi) := by
  intro fuel
  induction fuel with
  | zero => intro lo hi h1 h2; omega
  | succ f ih =>
    intro lo hi h1 h2
    rw [rangeCidrs_eq, if_pos h2]
    refine ⟨rfl, ?_⟩
    obtain ⟨_, hfit⟩ := maxBlockK_valid lo hi h2
    have hp : 0 < 2 ^ maxBlockK lo hi := Nat.pos_pow_of_pos _ (by omega)
    rcases Nat.lt_or_ge hi (lo + 2 ^ maxBlockK lo hi) with hend | hmore
    · have he : lo + 2 ^ maxBlockK lo hi = hi + 1 := by omega
      rw [he, rangeCidrs_eq, if_neg (by omega)]
      simp [consecBlocks]
    · exact ih (lo + 2 ^ maxBlockK lo hi) hi (by omega) hmore

theorem rangeCidrs_align :
    ∀ fuel lo hi, hi + 1 - lo ≤ fuel →
      ∀ bk ∈ rangeCidrs lo hi, bk.1 % 2 ^ bk.2 = 0 := by
  intro fuel
  induction fuel with
  | zero =>
    intro lo hi h1 bk hm
    rw [rangeCidrs_eq, if_neg (by omega)] at hm
    simp at hm
  | succ f ih =>
    intro lo hi h1 bk hm
    by_cases hle : lo ≤ hi
    · rw [rangeCidrs_eq, if_pos hle] at hm
      rcases List.mem_cons.mp hm with he | ht
      · subst he
        exact (maxBlockK_valid lo hi hle).1
      · have hp : 0 < 2 ^ maxBlockK lo hi := Nat.pos_pow_of_pos _ (by omega)
        exact ih (lo + 2 ^ maxBlockK lo hi) hi (by omega) bk ht
    · rw [rangeCidrs_eq, if_neg hle] at hm
      simp at hm

theorem consecBlocks_cover {stop : Nat} :
    ∀ l lo, consecBlocks lo stop l →
      ∀ x, (lo ≤ x ∧ x < stop) ↔ ∃ bk ∈ l, bk.1 ≤ x ∧ x < bk.1 + 2 ^ bk.2 := by
  intro l
  induction l with
  | nil =>
    intro lo h x
    simp only [consecBlocks] at h
    subst h
    simp only [List.not_mem_nil]
    constructor
    · intro hx; omega
    · rintro ⟨bk, hbk, _⟩; simp at hbk
  | cons bk rest ih =>
    intro lo h x
    obtain ⟨b, k⟩ := bk
    obtain ⟨hb, h2⟩ := h
    subst hb
    have hstop := consecBlocks_le rest _ h2
    have hiff := ih _ h2 x
    constructor
    · intro hx
      rcases Nat.lt_or_ge x (b + 2 ^ k) with hin | hout
      · exact ⟨(b, k), List.mem_cons_self _ _, hx.1, hin⟩
      · obtain ⟨bk2, hm, hr⟩ := hiff.mp ⟨hout, hx.2⟩
        exact ⟨bk2, List.mem_cons_of_mem _ hm, hr⟩
    · rintro ⟨bk2, hm, hr⟩
      rcases List.mem_cons.mp hm with he | ht
      · subst he
        simp only at hr
        omega
      · have := hiff.mpr ⟨bk2, ht, hr⟩
        have hp : 0 < 2 ^ k := Nat.pos_pow_of_pos _ (by omega)
        omega

/-- Minimality and canonicity: any aligned 2-power block lying inside the
range is contained in a single emitted block.  Consequently no cover of the
range by CIDR blocks can use fewer blocks than the emitted list, and the
emitted list is the canonical minimal cover. -/
theorem rangeCidrs_absorb :
    ∀ fuel lo hi, hi + 1 - lo ≤ fuel → lo ≤ hi →
      ∀ c j, c % 2 ^ j = 0 → lo ≤ c → c + 2 ^ j ≤ hi + 1 →
        ∃ bk ∈ rangeCidrs lo hi, bk.1 ≤ c ∧ c + 2 ^ j ≤ bk.1 + 2 ^ bk.2 := by
  intro fuel
  induction fuel with
  | zero => intro lo hi h1 h2; omega
  | succ f ih =>
    intro lo hi h1 h2 c j hca hcl hcf
    obtain ⟨halign, hfit⟩ := maxBlockK_valid lo hi h2
    set K := maxBlockK lo hi with hK
    have hpK : 0 < 2 ^ K := Nat.pos_pow_of_pos _ (by omega)
    have hpj : 0 < 2 ^ j := Nat.pos_pow_of_pos _ (by omega)
    rcases Nat.lt_or_ge c (lo + 2 ^ K) with hin | hout
    · -- the block lies inside the first greedy block
      refine ⟨(lo, K), ?_, by omega, ?_⟩
      · rw [rangeCidrs_eq, if_pos h2]; exact List.mem_cons_self _ _
      · simp only
        rcases le_or_lt j K with hjK | hjK
        · -- smaller block: alignment forces containment
          have hdK : (2 : Nat) ^ K ∣ lo := Nat.dvd_of_mod_eq_zero halign
          have hdjK : (2 : Nat) ^ j ∣ 2 ^ K := pow_dvd_pow 2 hjK
          have hdlo : (2 : Nat) ^ j ∣ lo := dvd_trans hdjK hdK
          have hdc : (2 : Nat) ^ j ∣ c := Nat.dvd_of_mod_eq_zero hca
          have hdd : (2 : Nat) ^ j ∣ (c - lo) := Nat.dvd_sub' hdc hdlo
          obtain ⟨m, hm⟩ := hdd
          obtain ⟨M, hM⟩ := hdjK
          have hmM : m < M := by
            have h3 : m * 2 ^ j < M * 2 ^ j := by
              rw [Nat.mul_comm m _, Nat.mul_comm M _, ← hm, ← hM]; omega
            exact Nat.lt_of_mul_lt_mul_right h3
          have h4 : (m + 1) * 2 ^ j ≤ M * 2 ^ j :=
            Nat.mul_le_mul_right _ (by omega)
          have h5 : (c - lo) + 2 ^ j ≤ 2 ^ K := by
            rw [hM, Nat.mul_comm]
            calc (c - lo) + 2 ^ j = (m + 1) * 2 ^ j := by rw [hm]; ring
            _ ≤ M * 2 ^ j := h4
          omega
        · -- bigger block: it would have been chosen by the greedy step
          exfalso
          have hdK : (2 : Nat) ^ K ∣ lo := Nat.dvd_of_mod_eq_zero halign
          have hdc1 : (2 : Nat) ^ (K + 1) ∣ c :=
            dvd_trans (pow_dvd_pow 2 (by omega)) (Nat.dvd_of_mod_eq_zero hca)
          obtain ⟨a, ha⟩ := hdK
          obtain ⟨b, hb⟩ := hdc1
          have hb2 : c = 2 ^ K * (2 * b) := by
            rw [hb, pow_succ]; ring
          have hab : a ≤ 2 * b ∧ 2 * b < a + 1 := by
            constructor
            · have h3 : 2 ^ K * a ≤ 2 ^ K * (2 * b) := by rw [← ha, ← hb2]; omega
              exact Nat.le_of_mul_le_mul_left h3 hpK
            · have h3 : 2 ^ K * (2 * b) < 2 ^ K * (a + 1) := by
                have hl2 : 2 ^ K * (a + 1) = lo + 2 ^ K := by rw [ha]; ring
                omega
              exact Nat.lt_of_mul_lt_mul_left h3
          have hba : 2 * b = a := by omega
          have hceq : c = lo := by rw [hb2, hba, ← ha]
          have hlo1 : lo % 2 ^ (K + 1) = 0 := by
            rw [← hceq, hb]
            exact Nat.mul_mod_right _ _
          have hfit1 : lo + 2 ^ (K + 1) ≤ hi + 1 := by
            have : (2 : Nat) ^ (K + 1) ≤ 2 ^ j := Nat.pow_le_pow_right (by omega) (by omega)
            omega
          have := maxBlockK_ge lo hi (K + 1) h2 hlo1 hfit1
          omega
    · -- the block lies beyond the first greedy block: recurse
      rcases Nat.lt_or_ge hi (lo + 2 ^ K) with hend | hmore
      · omega
      · obtain ⟨bk, hm, hr⟩ :=
          ih (lo + 2 ^ K) hi (by omega) hmore c j hca hout hcf
        refine ⟨bk, ?_, hr⟩
        rw [rangeCidrs_eq, if_pos h2]
        exact List.mem_cons_of_mem _ hm

/-! ## CIDR blocks (net/netip Prefix) -/

/-- Model of netip.Prefix: an address (its form tag and numeric value)
plus a bit length.  A 4-in-6 mapped address keeps is4 = false, as in Go. -/
structure Cidr where
  is4 : Bool
  val : Nat
  bits : Nat
deriving DecidableEq

/-- Bit width of the address family of the prefix. -/
def Cidr.width (p : Cidr) : Nat := if p.is4 then 32 else 128

/-- Prefix.Addr, the (possibly unmasked) address of the prefix. -/
def Cidr.addr (p : Cidr) : IPAddr := if p.is4 then .v4 p.val else .v6 p.val

/-- Value of netipx.PrefixLastIP: the address with all host bits set.  For
a host-bit count h this is val with its h low bits forced to one, written
arithmetically (equal to the bitwise or with the host mask). -/
def Cidr.lastVal (p : Cidr) : Nat :=
  p.val + (2 ^ (p.width - p.bits) - 1 - p.val % 2 ^ (p.width - p.bits))

/-- Last address of the prefix as an address of the same family. -/
def Cidr.lastIP (p : Cidr) : IPAddr :=
  if p.is4 then .v4 p.lastVal else .v6 p.lastVal

/-- Model of netipx.IPRangeFrom(s, e).Prefixes(): empty for an invalid
range (mixed families or start beyond end), else the canonical minimal
ascending CIDR cover of the inclusive range. -/
def rangeToCidrs (s e : IPAddr) : List Cidr :=
  if s.is4 = e.is4 ∧ s.val ≤ e.val then
    (rangeCidrs s.val e.val).map fun bk =>
      ⟨s.is4, bk.1, (if s.is4 then 32 else 128) - bk.2⟩
  else []

/-! ## The streaming accumulator (internal/merger/accumulator.go) -/

/-- AccumulatedRange: a continuous IP range with associated column data. -/
structure AccRange where
  startIP : IPAddr
  endIP : IPAddr
  data : MMap

/-- Output operation observed by the downstream writer. -/
inductive WOp where
  | row (cidr : Cidr) (data : MMap)
  | rng (s e : IPAddr) (data : MMap)

/-- Downstream sink: whether it implements RangeRowWriter, and the outcome
of each write call (none means success, some e means the sink returned
error e).  This models the writer the accumulator was constructed with. -/
structure Sink where
  hasRange : Bool
  rowErr : Cidr → MMap → Option String
  rngErr : IPAddr → IPAddr → MMap → Option String

/-- Loop of Accumulator.Flush over the CIDRs of the accumulated range:
each successful WriteRow is recorded; the first sink error stops the loop
and is returned (wrapped as in the Go code). -/
def writeRowsLoop (sk : Sink) (d : MMap) : List Cidr → List WOp × Option String
  | [] => ([], none)
  | c :: rest =>
    match sk.rowErr c d with
    | some e => ([], some ("writing row: " ++ e))
    | none =>
      let r := writeRowsLoop sk d rest
      (WOp.row c d :: r.1, r.2)

/-- Accumulator.Flush: writes the current accumulated range, preferring the
sink's native WriteRange, else decomposing into CIDR rows.  Returns the new
accumulator state, the successful writes, and the error if any.  As in the
Go code, the current range is cleared only after every write succeeded. -/
def Flush (sk : Sink) (st : Option AccRange) : Option AccRange × List WOp × Option String :=
  match st with
  | none => (none, [], none)
  | some cur =>
    if sk.hasRange then
      match sk.rngErr cur.startIP cur.endIP cur.data with
      | some e => (some cur, [], some ("writing range: " ++ e))
      | none => (none, [WOp.rng cur.startIP cur.endIP cur.data], none)
    else
      let r := writeRowsLoop sk cur.data (rangeToCidrs cur.startIP cur.endIP)
      match r.2 with
      | some e => (some cur, r.1, some e)
      | none => (none, r.1, none)

/-- Accumulator.Process: drop empty rows unless includeEmptyRows, open on
the first network, extend on adjacency with equal data, otherwise flush and
reopen from the incoming row (dropped when the flush fails). -/
def Process (sk : Sink) (incl : Bool) (st : Option AccRange) (p : Cidr) (data : MMap) :
    Option AccRange × List WOp × Option String :=
  if !incl && data.length == 0 then (st, [], none)
  else
    match st with
    | none => (some ⟨p.addr, p.lastIP, data⟩, [], none)
    | some cur =>
      if IsAdjacent cur.endIP p.addr && mapEqual cur.data data then
        (some ⟨cur.startIP, p.lastIP, cur.data⟩, [], none)
      else
        let f := Flush sk (some cur)
        match f.2.2 with
        | some e => (f.1, f.2.1, some e)
        | none => (some ⟨p.addr, p.lastIP, data⟩, f.2.1, none)

/-- Feed a list of rows through Process, stopping at the first error (as
the merge driver does), collecting the emitted operations. -/
def runAcc (sk : Sink) (incl : Bool) :
    List (Cidr × MMap) → Option AccRange → Option AccRange × List WOp × Option String
  | [], st => (st, [], none)
  | (p, d) :: rest, st =>
    let r := Process sk incl st p d
    match r.2.2 with
    | some e => (r.1, r.2.1, some e)
    | none =>
      let r2 := runAcc sk incl rest r.1
      (r2.1, r.2.1 ++ r2.2.1, r2.2.2)

/-- Full engine run over the accumulator: process every row starting from
the empty state, then the final Flush, yielding the emission trace and the
first error if any. -/
def runEngine (sk : Sink) (incl : Bool) (rows : List (Cidr × MMap)) :
    List WOp × Option String :=
  let r := runAcc sk incl rows none
  match r.2.2 with
  | some e => (r.2.1, some e)
  | none =>
    let f := Flush sk r.1
    (r.2.1 ++ f.2.1, f.2.2)

/-- Start address of an emitted operation. -/
def opStart : WOp → IPAddr
  | .row c _ => c.addr
  | .rng s _ _ => s

/-- End address of an emitted operation. -/
def opEnd : WOp → IPAddr
  | .row c _ => c.lastIP
  | .rng _ e _ => e

/-- Column data of an emitted operation. -/
def opData : WOp → MMap
  | .row _ d => d
  | .rng _ _ d => d

/-! ## Helper lemmas about flushing -/

theorem writeRowsLoop_ok (sk : Sink) (d : MMap) (l : List Cidr)
    (h : ∀ c, sk.rowErr c d = none) :
    writeRowsLoop sk d l = (l.map (fun c => WOp.row c d), none) := by
  induction l with
  | nil => rfl
  | cons c rest ih =>
    simp only [writeRowsLoop, h c, ih, List.map_cons]

/-! ## Claim theorems -/

/-- C5 (code_bug): the claim states IsAdjacent(255.255.255.255, 0.0.0.0)
is false, since the maximal IPv4 address has no successor.  The IsAdjacent
variant kept next to internal/writer/split.go compares end+1 with start in
uint32 arithmetic, which wraps around and yields true at exactly this
input, contradicting the claim, the doc comment of the function
(consecutive, no gap between them), and the Next-based IsAdjacent variant
of internal/network (src/unnamed/part_005), which yields false. -/
theorem C5_isAdjacent_wraparound_bug :
    IsAdjacentU32 (IPAddr.v4 (2 ^ 32 - 1)) (IPAddr.v4 0) = true ∧
    IsAdjacent (IPAddr.v4 (2 ^ 32 - 1)) (IPAddr.v4 0) = false := by
  refine ⟨?_, ?_⟩ <;> decide

/-- C1 (confirmed): the accumulator state machine.  Conjuncts: an entirely
empty column vector with include_empty_rows false is dropped with no state
change and no write; with no open range the row opens (first IP, last IP,
data) and writes nothing; when the incoming first IP is the immediate
successor of the open end and the data is deeply equal, only the open end
advances; otherwise the open range is flushed and the incoming row opens a
new one.  A flush hands the whole (start, end, data) to WriteRange when
the sink has one, else emits one WriteRow per block of the canonical
minimal CIDR cover in ascending order, and afterwards no range is open.
The final conjunct states the canonical-minimal-cover properties of the
decomposition: the blocks tile the range consecutively in ascending order,
each block is aligned, the blocks cover exactly the range, and every
aligned block inside the range is contained in a single emitted block (so
no CIDR cover can be smaller, and the emitted one is canonical). -/
theorem C1_accumulator_state_machine (sk : Sink) (incl : Bool) (st : Option AccRange)
    (p : Cidr) (d : MMap) (cur : AccRange) :
    (d.length = 0 → Process sk false st p d = (st, [], none)) ∧
    ((incl = true ∨ d.length ≠ 0) →
      Process sk incl none p d = (some ⟨p.addr, p.lastIP, d⟩, [], none)) ∧
    ((incl = true ∨ d.length ≠ 0) → cur.endIP.next = some p.addr →
      mapEqual cur.data d = true →
      Process sk incl (some cur) p d = (some ⟨cur.startIP, p.lastIP, cur.data⟩, [], none)) ∧
    ((incl = true ∨ d.length ≠ 0) →
      ¬(cur.endIP.next = some p.addr ∧ mapEqual cur.data d = true) →
      ∀ ops, Flush sk (some cur) = (none, ops, none) →
      Process sk incl (some cur) p d = (some ⟨p.addr, p.lastIP, d⟩, ops, none)) ∧
    (sk.hasRange = true → sk.rngErr cur.startIP cur.endIP cur.data = none →
      Flush sk (some cur) = (none, [WOp.rng cur.startIP cur.endIP cur.data], none)) ∧
    (sk.hasRange = false → (∀ c, sk.rowErr c cur.data = none) →
      Flush sk (some cur) =
        (none, (rangeToCidrs cur.startIP cur.endIP).map (fun c => WOp.row c cur.data), none)) ∧
    (∀ lo hi, lo ≤ hi →
      consecBlocks lo (hi + 1) (rangeCidrs lo hi) ∧
      (∀ bk ∈ rangeCidrs lo hi, bk.1 % 2 ^ bk.2 = 0) ∧
      (∀ x, (lo ≤ x ∧ x ≤ hi) ↔ ∃ bk ∈ rangeCidrs lo hi, bk.1 ≤ x ∧ x < bk.1 + 2 ^ bk.2) ∧
      (∀ c j, c % 2 ^ j = 0 → lo ≤ c → c + 2 ^ j ≤ hi + 1 →
        ∃ bk ∈ rangeCidrs lo hi, bk.1 ≤ c ∧ c + 2 ^ j ≤ bk.1 + 2 ^ bk.2)) := by
  refine ⟨?_, ?_, ?_, ?_, ?_, ?_, ?_⟩
  · intro h
    simp [Process, h]
  · intro h
    rcases h with h | h <;> simp [Process, h]
  · intro h hnext heq
    have hadj : IsAdjacent cur.endIP p.addr = true := (IsAdjacent_iff_next _ _).mpr hnext
    rcases h with h | h <;> simp [Process, h, hadj, heq]
  · intro h hnot ops hflush
    have hcond : (IsAdjacent cur.endIP p.addr && mapEqual cur.data d) = false := by
      rcases Bool.eq_false_or_eq_true (IsAdjacent cur.endIP p.addr) with ha | ha
      · have hne : mapEqual cur.data d = false := by
          rcases Bool.eq_false_or_eq_true (mapEqual cur.data d) with hb | hb
          · exact absurd ⟨(IsAdjacent_iff_next _ _).mp ha, hb⟩ hnot
          · exact hb
        simp [hne]
      · simp [ha]
    rcases h with h | h <;> simp [Process, h, hcond, hflush]
  · intro hr hok
    simp [Flush, hr, hok]
  · intro hr hok
    simp [Flush, hr, writeRowsLoop_ok sk cur.data _ hok]
  · intro lo hi hle
    have hconsec := rangeCidrs_consec (hi + 1 - lo) lo hi (Nat.le_refl _) hle
    refine ⟨hconsec, rangeCidrs_align (hi + 1 - lo) lo hi (Nat.le_refl _), ?_, ?_⟩
    · intro x
      have := @consecBlocks_cover (hi + 1) (rangeCidrs lo hi) lo hconsec x
      constructor
      · intro hx
        exact this.mp ⟨hx.1, by omega⟩
      · intro hx
        have := this.mpr hx
        exact ⟨this.1, by omega⟩
    · exact rangeCidrs_absorb (hi + 1 - lo) lo hi (Nat.le_refl _) hle

/-- Witness for C1 at concrete inputs: a 10.0.0.10/31-style row opens an
empty accumulator; an adjacent equal-data row extends the open end only; a
non-equal row flushes and reopens; a range sink receives the whole range;
a row sink receives the decomposed rows. -/
theorem C1_accumulator_state_machine_witness :
    Process ⟨true, fun _ _ => none, fun _ _ _ => none⟩ false none ⟨true, 10, 31⟩
        [("c", DataType.S "US")]
      = (some ⟨IPAddr.v4 10, IPAddr.v4 11, [("c", DataType.S "US")]⟩, [], none) ∧
    Process ⟨true, fun _ _ => none, fun _ _ _ => none⟩ false
        (some ⟨IPAddr.v4 8, IPAddr.v4 9, [("c", DataType.S "US")]⟩) ⟨true, 10, 31⟩
        [("c", DataType.S "US")]
      = (some ⟨IPAddr.v4 8, IPAddr.v4 11, [("c", DataType.S "US")]⟩, [], none) ∧
    Process ⟨true, fun _ _ => none, fun _ _ _ => none⟩ false
        (some ⟨IPAddr.v4 8, IPAddr.v4 9, [("c", DataType.S "CA")]⟩) ⟨true, 10, 31⟩
        [("c", DataType.S "US")]
      = (some ⟨IPAddr.v4 10, IPAddr.v4 11, [("c", DataType.S "US")]⟩,
         [WOp.rng (IPAddr.v4 8) (IPAddr.v4 9) [("c", DataType.S "CA")]], none) ∧
    Flush ⟨false, fun _ _ => none, fun _ _ _ => none⟩
        (some ⟨IPAddr.v4 8, IPAddr.v4 9, [("c", DataType.S "CA")]⟩)
      = (none, [WOp.row ⟨true, 8, 31⟩ [("c", DataType.S "CA")]], none) := by
  refine ⟨?_, ?_, ?_, ?_⟩
  · exact (C1_accumulator_state_machine ⟨true, fun _ _ => none, fun _ _ _ => none⟩ false none
      ⟨true, 10, 31⟩ [("c", DataType.S "US")] ⟨IPAddr.v4 8, IPAddr.v4 9, []⟩).2.1
      (Or.inr (by decide))
  · exact (C1_accumulator_state_machine ⟨true, fun _ _ => none, fun _ _ _ => none⟩ false none
      ⟨true, 10, 31⟩ [("c", DataType.S "US")]
      ⟨IPAddr.v4 8, IPAddr.v4 9, [("c", DataType.S "US")]⟩).2.2.1
      (Or.inr (by decide)) (by decide) rfl
  · exact (C1_accumulator_state_machine ⟨true, fun _ _ => none, fun _ _ _ => none⟩ false none
      ⟨true, 10, 31⟩ [("c", DataType.S "US")]
      ⟨IPAddr.v4 8, IPAddr.v4 9, [("c", DataType.S "CA")]⟩).2.2.2.1
      (Or.inr (by decide))
      (by
        rintro ⟨_, habs⟩
        exact absurd habs (by decide))
      [WOp.rng (IPAddr.v4 8) (IPAddr.v4 9) [("c", DataType.S "CA")]] rfl
  · exact (C1_accumulator_state_machine ⟨false, fun _ _ => none, fun _ _ _ => none⟩ false none
      ⟨true, 10, 31⟩ [("c", DataType.S "US")]
      ⟨IPAddr.v4 8, IPAddr.v4 9, [("c", DataType.S "CA")]⟩).2.2.2.2.2.1
      rfl (fun _ => rfl)

/-! ## Maximal coalescing across flushes (claim C2) -/

/-- Two consecutively emitted operations must not be both adjacent and
carrying deeply equal column data. -/
def noCoalescePair (a b : WOp) : Prop :=
  ¬(IsAdjacent (opEnd a) (opStart b) = true ∧ mapEqual (opData a) (opData b) = true)

/-- Invariant carried along a run of the accumulator: the trace so far has
no coalescable consecutive pair, a trace exists only once a range was
opened, and the open range is never adjacent-with-equal-data to the last
flushed operation. -/
def AccInv (tr : List WOp) (st : Option AccRange) : Prop :=
  List.Chain' noCoalescePair tr ∧
  (st = none → tr = []) ∧
  (∀ cur op, st = some cur → tr.getLast? = some op →
    ¬(IsAdjacent (opEnd op) cur.startIP = true ∧ mapEqual (opData op) cur.data = true))

theorem runAcc_chain (sk : Sink) (incl : Bool) (hR : sk.hasRange = true)
    (hok : ∀ s e d, sk.rngErr s e d = none) :
    ∀ rows st tr, AccInv tr st →
      (runAcc sk incl rows st).2.2 = none ∧
      AccInv (tr ++ (runAcc sk incl rows st).2.1) (runAcc sk incl rows st).1 := by
  intro rows
  induction rows with
  | nil =>
    intro st tr hinv
    simpa [runAcc] using hinv
  | cons row rest ih =>
    intro st tr hinv
    obtain ⟨p, d⟩ := row
    by_cases hskip : (!incl && d.length == 0) = true
    · have hpr : Process sk incl st p d = (st, [], none) := by
        simp [Process, hskip]
      have := ih st tr hinv
      simpa [runAcc, hpr] using this
    · match st, hinv with
      | none, hinv =>
        have hpr : Process sk incl none p d = (some ⟨p.addr, p.lastIP, d⟩, [], none) := by
          simp [Process, hskip]
        have htr : tr = [] := hinv.2.1 rfl
        have hinv2 : AccInv tr (some ⟨p.addr, p.lastIP, d⟩) := by
          refine ⟨hinv.1, by simp, ?_⟩
          intro cur op _ hlast
          rw [htr] at hlast
          simp at hlast
        have := ih (some ⟨p.addr, p.lastIP, d⟩) tr hinv2
        simpa [runAcc, hpr] using this
      | some cur, hinv =>
        by_cases hcond : (IsAdjacent cur.endIP p.addr && mapEqual cur.data d) = true
        · have hpr : Process sk incl (some cur) p d
              = (some ⟨cur.startIP, p.lastIP, cur.data⟩, [], none) := by
            simp [Process, hskip, hcond]
          have hinv2 : AccInv tr (some ⟨cur.startIP, p.lastIP, cur.data⟩) := by
            refine ⟨hinv.1, by simp, ?_⟩
            intro cur2 op hcur2 hlast
            cases hcur2
            exact hinv.2.2 cur op rfl hlast
          have := ih (some ⟨cur.startIP, p.lastIP, cur.data⟩) tr hinv2
          simpa [runAcc, hpr] using this
        · have hflush : Flush sk (some cur)
              = (none, [WOp.rng cur.startIP cur.endIP cur.data], none) := by
            simp [Flush, hR, hok]
          have hpr : Process sk incl (some cur) p d
              = (some ⟨p.addr, p.lastIP, d⟩,
                 [WOp.rng cur.startIP cur.endIP cur.data], none) := by
            simp [Process, hskip, Bool.eq_false_iff.mpr hcond, hflush]
          set op := WOp.rng cur.startIP cur.endIP cur.data with hop
          have hchain2 : List.Chain' noCoalescePair (tr ++ [op]) := by
            rw [List.chain'_append]
            refine ⟨hinv.1, List.chain'_singleton _, ?_⟩
            intro x hx y hy
            simp at hy
            subst hy
            exact hinv.2.2 cur x rfl hx
          have hinv2 : AccInv (tr ++ [op]) (some ⟨p.addr, p.lastIP, d⟩) := by
            refine ⟨hchain2, by simp, ?_⟩
            intro cur2 op2 hcur2 hlast
            cases hcur2
            rw [List.getLast?_append] at hlast
            · simp at hlast
              subst hlast
              intro hpair
              apply hcond
              simp only [hop, opEnd, opData] at hpair
              simp [hpair.1, hpair.2]
          have := ih (some ⟨p.addr, p.lastIP, d⟩) (tr ++ [op]) hinv2
          refine ⟨?_, ?_⟩
          · simp only [runAcc, hpr]
            simpa using this.1
          · have h2 := this.2
            simp only [runAcc, hpr]
            simpa [List.append_assoc] using h2

/-- C2 amended (theorem): with a range-capable sink, in the trace the
engine emits for any sequence of rows, no two consecutively flushed ranges
are both adjacent and carrying deeply equal data.  (As stated over CIDR
rows the claim fails: one flushed range decomposes into several adjacent
CIDRs that necessarily carry the same data; see the counterexample.) -/
theorem C2_maximal_coalescing_across_flushes (sk : Sink) (incl : Bool)
    (rows : List (Cidr × MMap)) (hR : sk.hasRange = true)
    (hok : ∀ s e d, sk.rngErr s e d = none) :
    List.Chain' noCoalescePair (runEngine sk incl rows).1 := by
  have hstart : AccInv [] none := by
    refine ⟨List.chain'_nil, fun _ => rfl, ?_⟩
    intro cur op h1 h2
    simp at h2
  have hrun := runAcc_chain sk incl hR hok rows none [] hstart
  simp only [List.nil_append] at hrun
  rcases hres : runAcc sk incl rows none with ⟨st1, ops1, err1⟩
  rw [hres] at hrun
  have herr : err1 = none := hrun.1
  subst herr
  match st1, hrun with
  | none, hrun =>
    have hflush : Flush sk none = (none, [], none) := rfl
    simpa [runEngine, hres, hflush] using hrun.2.1
  | some cur, hrun =>
    have hflush : Flush sk (some cur)
        = (none, [WOp.rng cur.startIP cur.endIP cur.data], none) := by
      simp [Flush, hR, hok]
    have hgoal : (runEngine sk incl rows).1
        = ops1 ++ [WOp.rng cur.startIP cur.endIP cur.data] := by
      simp [runEngine, hres, hflush]
    rw [hgoal, List.chain'_append]
    refine ⟨hrun.2.1, List.chain'_singleton _, ?_⟩
    intro x hx y hy
    simp at hy
    subst hy
    exact hrun.2.2.2 cur x rfl hx

/-- C2 counterexample: with a row sink, feeding 10.0.0.1/32 and the
adjacent 10.0.0.2/31 with identical data coalesces them into one range
whose minimal CIDR cover is again those two blocks; the engine thus emits
two consecutive CIDRs that are adjacent and carry deeply equal data,
refuting the claim as stated over emitted CIDRs. -/
theorem C2_counterexample :
    (runEngine ⟨false, fun _ _ => none, fun _ _ _ => none⟩ false
        [(⟨true, 0x0A000001, 32⟩, [("c", DataType.S "US")]),
         (⟨true, 0x0A000002, 31⟩, [("c", DataType.S "US")])]).1
      = [WOp.row ⟨true, 0x0A000001, 32⟩ [("c", DataType.S "US")],
         WOp.row ⟨true, 0x0A000002, 31⟩ [("c", DataType.S "US")]] ∧
    IsAdjacent (opEnd (WOp.row ⟨true, 0x0A000001, 32⟩ [("c", DataType.S "US")]))
        (opStart (WOp.row ⟨true, 0x0A000002, 31⟩ [("c", DataType.S "US")])) = true ∧
    mapEqual [("c", DataType.S "US")] [("c", DataType.S "US")] = true :=
  ⟨rfl, rfl, rfl⟩

/-- Witness for the amended C2 theorem at a concrete range-capable sink
and a concrete two-row input with a data change. -/
theorem C2_maximal_coalescing_across_flushes_witness :
    List.Chain' noCoalescePair
      (runEngine ⟨true, fun _ _ => none, fun _ _ _ => none⟩ false
        [(⟨true, 0x0A000001, 32⟩, [("c", DataType.S "US")]),
         (⟨true, 0x0A000010, 28⟩, [("c", DataType.S "CA")])]).1 :=
  C2_maximal_coalescing_across_flushes ⟨true, fun _ _ => none, fun _ _ _ => none⟩ false
    [(⟨true, 0x0A000001, 32⟩, [("c", DataType.S "US")]),
     (⟨true, 0x0A000010, 28⟩, [("c", DataType.S "CA")])] rfl (fun _ _ _ => rfl)

/-! ## Error handling in the accumulator (claim C3) -/

theorem Flush_err_keeps_state (sk : Sink) (cur : AccRange) (e : String)
    (h : (Flush sk (some cur)).2.2 = some e) : (Flush sk (some cur)).1 = some cur := by
  unfold Flush at h ⊢
  by_cases hr : sk.hasRange
  · simp only [hr, if_true] at h ⊢
    match hx : sk.rngErr cur.startIP cur.endIP cur.data with
    | some e2 => simp [hx]
    | none => simp [hx] at h
  · simp only [hr, if_false, Bool.false_eq_true] at h ⊢
    match hx : (writeRowsLoop sk cur.data (rangeToCidrs cur.startIP cur.endIP)).2 with
    | some e2 => simp [hx]
    | none => simp [hx] at h

/-- C3 counterexample: a sink whose WriteRange fails leaves the
accumulator still holding the open range (not the empty state the claim
asserts), and a subsequent Flush re-attempts and, once the sink accepts,
writes that same retained range (so it does write, and the row is
retried). -/
theorem C3_counterexample :
    Flush ⟨true, fun _ _ => none, fun _ _ _ => some "disk full"⟩
        (some ⟨IPAddr.v4 8, IPAddr.v4 9, [("c", DataType.S "US")]⟩)
      = (some ⟨IPAddr.v4 8, IPAddr.v4 9, [("c", DataType.S "US")]⟩, [],
         some "writing range: disk full") ∧
    some (⟨IPAddr.v4 8, IPAddr.v4 9, [("c", DataType.S "US")]⟩ : AccRange)
      ≠ (none : Option AccRange) ∧
    (Flush ⟨true, fun _ _ => none, fun _ _ _ => none⟩
        (some ⟨IPAddr.v4 8, IPAddr.v4 9, [("c", DataType.S "US")]⟩)).2.1
      = [WOp.rng (IPAddr.v4 8) (IPAddr.v4 9) [("c", DataType.S "US")]] :=
  ⟨rfl, by simp, rfl⟩

/-- C3 amended (theorem): when the sink errors during a flush, the error
is surfaced immediately, but the accumulator retains the open range
instead of becoming empty; a flush error inside Process likewise surfaces
the flush error, keeps the old range, and drops the incoming row; a
subsequent Flush whose write succeeds emits exactly the retained range, so
the flushed range is retried rather than discarded. -/
theorem C3_error_retains_open_range (sk sk2 : Sink) (incl : Bool)
    (cur : AccRange) (p : Cidr) (d : MMap) (e : String) :
    ((Flush sk (some cur)).2.2 = some e → (Flush sk (some cur)).1 = some cur) ∧
    ((Process sk incl (some cur) p d).2.2 = some e →
      (Process sk incl (some cur) p d).1 = some cur ∧
      (Process sk incl (some cur) p d).2.2 = (Flush sk (some cur)).2.2) ∧
    (sk2.hasRange = true → sk2.rngErr cur.startIP cur.endIP cur.data = none →
      Flush sk2 (some cur) = (none, [WOp.rng cur.startIP cur.endIP cur.data], none)) := by
  refine ⟨Flush_err_keeps_state sk cur e, ?_, ?_⟩
  · intro herr
    unfold Process at herr ⊢
    by_cases hskip : (!incl && d.length == 0) = true
    · simp [hskip] at herr
    · simp only [hskip, if_false, Bool.false_eq_true] at herr ⊢
      by_cases hcond : (IsAdjacent cur.endIP p.addr && mapEqual cur.data d) = true
      · simp [hcond] at herr
      · simp only [Bool.eq_false_iff.mpr hcond, if_false, Bool.false_eq_true] at herr ⊢
        match hx : (Flush sk (some cur)).2.2 with
        | some e2 =>
          simp only [hx] at herr ⊢
          exact ⟨Flush_err_keeps_state sk cur e2 hx, trivial⟩
        | none => simp [hx] at herr
  · intro hr hok
    simp [Flush, hr, hok]

/-- Witness for the amended C3 theorem: a concrete range whose flush fails
with a failing sink (directly and inside Process) and succeeds with an
accepting one. -/
theorem C3_error_retains_open_range_witness :
    ((Flush ⟨true, fun _ _ => none, fun _ _ _ => some "disk full"⟩
        (some ⟨IPAddr.v4 8, IPAddr.v4 9, [("c", DataType.S "US")]⟩)).1
      = some ⟨IPAddr.v4 8, IPAddr.v4 9, [("c", DataType.S "US")]⟩) ∧
    ((Process ⟨true, fun _ _ => none, fun _ _ _ => some "disk full"⟩ false
        (some ⟨IPAddr.v4 8, IPAddr.v4 9, [("c", DataType.S "US")]⟩)
        ⟨true, 12, 31⟩ [("c", DataType.S "CA")]).1
      = some ⟨IPAddr.v4 8, IPAddr.v4 9, [("c", DataType.S "US")]⟩) ∧
    Flush ⟨true, fun _ _ => none, fun _ _ _ => none⟩
        (some ⟨IPAddr.v4 8, IPAddr.v4 9, [("c", DataType.S "US")]⟩)
      = (none, [WOp.rng (IPAddr.v4 8) (IPAddr.v4 9) [("c", DataType.S "US")]], none) := by
  have h1 := C3_error_retains_open_range
    ⟨true, fun _ _ => none, fun _ _ _ => some "disk full"⟩
    ⟨true, fun _ _ => none, fun _ _ _ => none⟩ false
    ⟨IPAddr.v4 8, IPAddr.v4 9, [("c", DataType.S "US")]⟩
    ⟨true, 12, 31⟩ [("c", DataType.S "CA")] "writing range: disk full"
  exact ⟨h1.1 rfl, (h1.2.1 rfl).1, h1.2.2 rfl rfl⟩

/-! ## Copy-on-open (claim C4): reference-level accumulator

Go maps are reference types: the assignment Data: data in
Accumulator.Process stores the caller's map header, not a copy of the
contents.  To make that observable in a pure embedding, the column data is
passed as a reference into a store of map values; mutating the caller's
map is replacing the value at its reference. -/

/-- Store of map values addressed by references. -/
abbrev MapStore := List MMap

/-- Dereference a map (the empty map for a dangling reference). -/
def readMap (σ : MapStore) (r : Nat) : MMap := σ.getD r []

/-- AccumulatedRange at the reference level: the data field holds the map
reference stored by Process. -/
structure AccRangeRef where
  startIP : IPAddr
  endIP : IPAddr
  dataRef : Nat

/-- Accumulator.Flush at the reference level: data values are read from
the store at flush time. -/
def FlushRef (σ : MapStore) (sk : Sink) (st : Option AccRangeRef) :
    Option AccRangeRef × List WOp × Option String :=
  match st with
  | none => (none, [], none)
  | some cur =>
    if sk.hasRange then
      match sk.rngErr cur.startIP cur.endIP (readMap σ cur.dataRef) with
      | some e => (some cur, [], some ("writing range: " ++ e))
      | none => (none, [WOp.rng cur.startIP cur.endIP (readMap σ cur.dataRef)], none)
    else
      let r := writeRowsLoop sk (readMap σ cur.dataRef) (rangeToCidrs cur.startIP cur.endIP)
      match r.2 with
      | some e => (some cur, r.1, some e)
      | none => (none, r.1, none)

/-- Accumulator.Process at the reference level, mirroring the Go code: the
branch that opens a range stores the incoming reference itself (Data:
data), performing no copy. -/
def ProcessRef (σ : MapStore) (sk : Sink) (incl : Bool) (st : Option AccRangeRef)
    (p : Cidr) (dref : Nat) : Option AccRangeRef × List WOp × Option String :=
  if !incl && (readMap σ dref).length == 0 then (st, [], none)
  else
    match st with
    | none => (some ⟨p.addr, p.lastIP, dref⟩, [], none)
    | some cur =>
      if IsAdjacent cur.endIP p.addr
          && mapEqual (readMap σ cur.dataRef) (readMap σ dref) then
        (some ⟨cur.startIP, p.lastIP, cur.dataRef⟩, [], none)
      else
        let f := FlushRef σ sk (some cur)
        match f.2.2 with
        | some e => (f.1, f.2.1, some e)
        | none => (some ⟨p.addr, p.lastIP, dref⟩, f.2.1, none)

/-- C4 counterexample: Process opens a range from the caller's map
(reference 0, holding x = true); mutating the caller-owned map to
x = false afterwards changes what the open range's data dereferences to —
the held data is no longer deeply equal to the value handed to Process,
refuting the claim that mutation after Process cannot alter the open
range's data. -/
theorem C4_counterexample :
    (ProcessRef [[("x", DataType.B true)]] ⟨true, fun _ _ => none, fun _ _ _ => none⟩
        false none ⟨true, 10, 31⟩ 0).1
      = some ⟨IPAddr.v4 10, IPAddr.v4 11, 0⟩ ∧
    readMap [[("x", DataType.B true)]] 0 = [("x", DataType.B true)] ∧
    readMap [[("x", DataType.B false)]] 0 = [("x", DataType.B false)] ∧
    mapEqual [("x", DataType.B true)] [("x", DataType.B false)] = false :=
  ⟨rfl, rfl, rfl, rfl⟩

/-- C4 amended (theorem): whenever Process opens a new range (first row,
or reopening after a successful flush), the stored data is exactly the
caller's map reference — no fresh deep copy is taken — so the open range's
data read in any later store state is whatever the caller's map holds
there.  (In the shipped Map-based pipeline this is benign because
extractAndProcess allocates a fresh map per row and never mutates it after
Process returns.) -/
theorem C4_no_copy_on_open (σ : MapStore) (sk : Sink) (incl : Bool)
    (p : Cidr) (dref : Nat) (cur : AccRangeRef) :
    ((incl = true ∨ (readMap σ dref).length ≠ 0) →
      (ProcessRef σ sk incl none p dref).1 = some ⟨p.addr, p.lastIP, dref⟩) ∧
    ((incl = true ∨ (readMap σ dref).length ≠ 0) →
      (IsAdjacent cur.endIP p.addr
        && mapEqual (readMap σ cur.dataRef) (readMap σ dref)) = false →
      (FlushRef σ sk (some cur)).2.2 = none →
      (ProcessRef σ sk incl (some cur) p dref).1 = some ⟨p.addr, p.lastIP, dref⟩) ∧
    (∀ σ2 : MapStore,
      readMap σ2 (AccRangeRef.dataRef ⟨p.addr, p.lastIP, dref⟩) = readMap σ2 dref) := by
  refine ⟨?_, ?_, fun _ => rfl⟩
  · intro h
    rcases h with h | h <;> simp [ProcessRef, h]
  · intro h hcond hflush
    have hg : (!incl && (readMap σ dref).length == 0) = false := by
      rcases h with h | h <;> simp [h]
    simp only [ProcessRef, hg]
    simp [hcond, hflush]

/-- Witness for the amended C4 theorem at the concrete store and row of
the counterexample. -/
theorem C4_no_copy_on_open_witness :
    (ProcessRef [[("x", DataType.B true)]] ⟨true, fun _ _ => none, fun _ _ _ => none⟩
        false none ⟨true, 10, 31⟩ 0).1
      = some ⟨IPAddr.v4 10, IPAddr.v4 11, 0⟩ ∧
    readMap [[("x", DataType.B false)]]
        (AccRangeRef.dataRef ⟨IPAddr.v4 10, IPAddr.v4 11, 0⟩)
      = readMap [[("x", DataType.B false)]] 0 := by
  have h := C4_no_copy_on_open [[("x", DataType.B true)]]
    ⟨true, fun _ _ => none, fun _ _ _ => none⟩ false ⟨true, 10, 31⟩ 0
    ⟨IPAddr.v4 0, IPAddr.v4 1, 0⟩
  exact ⟨h.1 (Or.inr (by decide)), h.2.2 [[("x", DataType.B false)]]⟩

/-! ## IP-version validation and merger construction (claim C8)

Model of validateIPVersions and the construction steps of NewMerger in
internal/merger/merger.go.  A reader is its declared metadata IP version;
the Readers container is name-keyed lookup. -/

/-- Reader metadata as consumed by the validator. -/
structure ReaderM where
  ipVersion : Nat

/-- Name-keyed reader container (mmdb.Readers). -/
abbrev Readers := List (String × ReaderM)

/-- Readers.Get. -/
def readersGet (rs : Readers) (name : String) : Option ReaderM :=
  match rs with
  | [] => none
  | (n, r) :: rest => if n == name then some r else readersGet rest name

/-- Path segment as it arrives from the configuration ([]any in Go): a
string key, an integer index, or a value of an unsupported type carrying
its Go type name. -/
inductive RawSeg where
  | str (s : String)
  | int (i : Int)
  | bad (tag : String)
deriving DecidableEq

/-- Column specification (name, database, path, optional output path). -/
structure ColumnCfg where
  name : String
  database : String
  path : List RawSeg
  outputPath : Option (List RawSeg)

/-- Configuration slice the merger construction consumes. -/
structure ConfigM where
  columns : List ColumnCfg
  includeEmptyRows : Option Bool

/-- Model of mmdb.NormalizeSegments: strings and integers pass (the
int64-to-int narrowing never fails on a 64-bit platform), any other
segment type is rejected with its type name. -/
def normalizeSegments : List RawSeg → Except String (List RawSeg)
  | [] => .ok []
  | .bad tag :: _ => .error ("unsupported path segment type " ++ tag)
  | s :: rest => (normalizeSegments rest).map (s :: ·)

/-- Names of the v4-only readers, in order (validateIPVersions). -/
def ipv4Only (rl : List ReaderM) (ns : List String) : List String :=
  (ns.zip rl).filterMap fun p => if p.2.ipVersion = 4 then some p.1 else none

/-- Names of the v6-capable readers, in order (validateIPVersions). -/
def ipv6Capable (rl : List ReaderM) (ns : List String) : List String :=
  (ns.zip rl).filterMap fun p => if p.2.ipVersion = 6 then some p.1 else none

/-- Formatted entries for readers with unsupported declared versions. -/
def unsupportedV (rl : List ReaderM) (ns : List String) : List String :=
  (ns.zip rl).filterMap fun p =>
    if p.2.ipVersion = 4 ∨ p.2.ipVersion = 6 then none
    else some (p.1 ++ " (ip_version=" ++ toString p.2.ipVersion ++ ")")

/-- Error message for a mixed v4-only and v6-capable configuration. -/
def mixMsg (rl : List ReaderM) (ns : List String) : String :=
  "configured databases mix IPv4-only (" ++ String.intercalate ", " (ipv4Only rl ns)
    ++ ") and IPv6-capable (" ++ String.intercalate ", " (ipv6Capable rl ns)
    ++ ") files; run separate conversions per IP version or supply homogeneous databases"

/-- Error message for unsupported declared versions. -/
def unsupMsg (rl : List ReaderM) (ns : List String) : String :=
  "unsupported ip_version values reported: "
    ++ String.intercalate ", " (unsupportedV rl ns)

/-- Model of validateIPVersions: group the readers by declared version,
report unsupported values first, then reject when both the v4-only and the
v6-capable group are non-empty. -/
def validateIPVersions (rl : List ReaderM) (ns : List String) : Except String Unit :=
  if unsupportedV rl ns ≠ [] then .error (unsupMsg rl ns)
  else if ipv4Only rl ns ≠ [] ∧ ipv6Capable rl ns ≠ [] then .error (mixMsg rl ns)
  else .ok ()

/-- Unique database names in first-use order over the column list. -/
def getUniqueDatabaseNames (cols : List ColumnCfg) : List String :=
  cols.foldl (fun acc c => if c.database ∈ acc then acc else acc ++ [c.database]) []

/-- Resolve each database name, failing on the first missing one. -/
def lookupReaders (readers : Readers) : List String → Except String (List ReaderM)
  | [] => .ok []
  | n :: rest =>
    match readersGet readers n with
    | none => .error ("database " ++ n ++ " not found")
    | some r => (lookupReaders readers rest).map (r :: ·)

/-- The extractor-building loop of NewMerger: resolve each column's
database and normalise its path. -/
def buildExtractors (readers : Readers) : List ColumnCfg → Except String Unit
  | [] => .ok ()
  | c :: rest =>
    match readersGet readers c.database with
    | none => .error ("database " ++ c.database ++ " not found for column " ++ c.name)
    | some _ =>
      match normalizeSegments c.path with
      | .error e => .error ("normalizing path for column " ++ c.name ++ ": " ++ e)
      | .ok _ => buildExtractors readers rest

/-- Constructed merger (the parts of the Merger struct the claims need). -/
structure MergerM where
  dbNamesList : List String
  readersList : List ReaderM
  includeEmptyRows : Bool

/-- Model of NewMerger: build the unique name list, resolve readers,
validate IP versions before building extractors, then build extractors. -/
def NewMergerCheck (readers : Readers) (cfg : ConfigM) : Except String MergerM :=
  let names := getUniqueDatabaseNames cfg.columns
  if names = [] then .error "no databases configured"
  else
    match lookupReaders readers names with
    | .error e => .error e
    | .ok rl =>
      match validateIPVersions rl names with
      | .error e => .error e
      | .ok _ =>
        match buildExtractors readers cfg.columns with
        | .error e => .error e
        | .ok _ => .ok ⟨names, rl, cfg.includeEmptyRows.getD false⟩

/-- Rows the whole pipeline emits when iteration is modelled by any
function of the constructed merger: construction failure means the merge
never runs, so nothing is emitted. -/
def pipelineRows {α : Type} (f : MergerM → List α) (readers : Readers) (cfg : ConfigM) :
    List α :=
  match NewMergerCheck readers cfg with
  | .error _ => []
  | .ok m => f m

theorem unsupportedV_eq_nil (rl : List ReaderM) (ns : List String) :
    unsupportedV rl ns = [] ↔
      ∀ p ∈ ns.zip rl, p.2.ipVersion = 4 ∨ p.2.ipVersion = 6 := by
  unfold unsupportedV
  rw [List.filterMap_eq_nil_iff]
  constructor
  · intro h p hp
    have := h p hp
    by_contra hc
    simp [hc] at this
  · intro h p hp
    simp [h p hp]

theorem ipv4Only_eq_nil (rl : List ReaderM) (ns : List String) :
    ipv4Only rl ns = [] ↔ ∀ p ∈ ns.zip rl, p.2.ipVersion ≠ 4 := by
  unfold ipv4Only
  rw [List.filterMap_eq_nil_iff]
  constructor
  · intro h p hp
    have := h p hp
    by_contra hc
    simp [hc] at this
  · intro h p hp
    simp [h p hp]

theorem ipv6Capable_eq_nil (rl : List ReaderM) (ns : List String) :
    ipv6Capable rl ns = [] ↔ ∀ p ∈ ns.zip rl, p.2.ipVersion ≠ 6 := by
  unfold ipv6Capable
  rw [List.filterMap_eq_nil_iff]
  constructor
  · intro h p hp
    have := h p hp
    by_contra hc
    simp [hc] at this
  · intro h p hp
    simp [h p hp]

/-- C8 (confirmed): the validator passes exactly when the configured
readers form a single group (all declared version 4 or all 6); a reader
with any other declared version produces the descriptive unsupported-value
error; a mix of v4-only and v6-capable readers produces the descriptive
mixed-versions error; and a validator error makes NewMerger fail with that
very error, so the merge never starts and no rows are emitted (the readers
list and the name list always have equal length in NewMerger, so the
zipped pairs cover every configured reader). -/
theorem C8_mixed_ip_versions_rejected (readers : Readers) (cfg : ConfigM)
    (rl : List ReaderM) (ns : List String) (e : String) (α : Type) :
    (validateIPVersions rl ns = .ok () ↔
      ((∀ p ∈ ns.zip rl, p.2.ipVersion = 4) ∨ (∀ p ∈ ns.zip rl, p.2.ipVersion = 6))) ∧
    ((∃ p ∈ ns.zip rl, p.2.ipVersion ≠ 4 ∧ p.2.ipVersion ≠ 6) →
      validateIPVersions rl ns = .error (unsupMsg rl ns)) ∧
    ((∀ p ∈ ns.zip rl, p.2.ipVersion = 4 ∨ p.2.ipVersion = 6) →
      (∃ p ∈ ns.zip rl, p.2.ipVersion = 4) → (∃ p ∈ ns.zip rl, p.2.ipVersion = 6) →
      validateIPVersions rl ns = .error (mixMsg rl ns)) ∧
    (getUniqueDatabaseNames cfg.columns ≠ [] →
      lookupReaders readers (getUniqueDatabaseNames cfg.columns) = .ok rl →
      validateIPVersions rl (getUniqueDatabaseNames cfg.columns) = .error e →
      NewMergerCheck readers cfg = .error e ∧
      ∀ f : MergerM → List α, pipelineRows f readers cfg = []) := by
  refine ⟨?_, ?_, ?_, ?_⟩
  · unfold validateIPVersions
    constructor
    · intro h
      by_cases h1 : unsupportedV rl ns = []
      · by_cases h2 : ipv4Only rl ns ≠ [] ∧ ipv6Capable rl ns ≠ []
        · simp [h1, h2] at h
        · have hsup := (unsupportedV_eq_nil rl ns).mp h1
          rcases not_and_or.mp h2 with h4 | h6
          · have h4n := (ipv4Only_eq_nil rl ns).mp (not_not.mp h4)
            right
            intro p hp
            rcases hsup p hp with hv | hv
            · exact absurd hv (h4n p hp)
            · exact hv
          · have h6n := (ipv6Capable_eq_nil rl ns).mp (not_not.mp h6)
            left
            intro p hp
            rcases hsup p hp with hv | hv
            · exact hv
            · exact absurd hv (h6n p hp)
      · simp [h1] at h
    · intro h
      have h1 : unsupportedV rl ns = [] := by
        rw [unsupportedV_eq_nil]
        intro p hp
        rcases h with h | h
        · exact Or.inl (h p hp)
        · exact Or.inr (h p hp)
      have h2 : ¬(ipv4Only rl ns ≠ [] ∧ ipv6Capable rl ns ≠ []) := by
        rcases h with h | h
        · intro hc
          exact hc.2 ((ipv6Capable_eq_nil rl ns).mpr (fun p hp => by rw [h p hp]; omega))
        · intro hc
          exact hc.1 ((ipv4Only_eq_nil rl ns).mpr (fun p hp => by rw [h p hp]; omega))
      simp [h1, h2]
  · rintro ⟨p, hp, hv4, hv6⟩
    have h1 : unsupportedV rl ns ≠ [] := by
      rw [Ne, unsupportedV_eq_nil]
      intro hall
      rcases hall p hp with h | h
      · exact hv4 h
      · exact hv6 h
    simp [validateIPVersions, h1]
  · rintro hsup ⟨p4, hp4, hv4⟩ ⟨p6, hp6, hv6⟩
    have h1 : unsupportedV rl ns = [] := (unsupportedV_eq_nil rl ns).mpr hsup
    have h2 : ipv4Only rl ns ≠ [] := by
      rw [Ne, ipv4Only_eq_nil]
      intro hall
      exact hall p4 hp4 hv4
    have h3 : ipv6Capable rl ns ≠ [] := by
      rw [Ne, ipv6Capable_eq_nil]
      intro hall
      exact hall p6 hp6 hv6
    simp [validateIPVersions, h1, h2, h3]
  · intro hne hlook hval
    have hmc : NewMergerCheck readers cfg = .error e := by
      unfold NewMergerCheck
      simp [hne, hlook, hval]
    exact ⟨hmc, fun f => by simp [pipelineRows, hmc]⟩

/-- Witness for C8: one declared-v4 and one declared-v6 database make the
validator and NewMerger fail with the descriptive mixed-versions error,
and the pipeline emits nothing. -/
theorem C8_mixed_ip_versions_rejected_witness :
    NewMergerCheck [("city", ⟨4⟩), ("anon", ⟨6⟩)]
        ⟨[⟨"c1", "city", [], none⟩, ⟨"c2", "anon", [], none⟩], none⟩
      = .error (mixMsg [⟨4⟩, ⟨6⟩] ["city", "anon"]) ∧
    pipelineRows (fun m => m.dbNamesList) [("city", ⟨4⟩), ("anon", ⟨6⟩)]
        ⟨[⟨"c1", "city", [], none⟩, ⟨"c2", "anon", [], none⟩], none⟩
      = [] := by
  have h := C8_mixed_ip_versions_rejected [("city", ⟨4⟩), ("anon", ⟨6⟩)]
    ⟨[⟨"c1", "city", [], none⟩, ⟨"c2", "anon", [], none⟩], none⟩
    [⟨4⟩, ⟨6⟩] ["city", "anon"] (mixMsg [⟨4⟩, ⟨6⟩] ["city", "anon"]) String
  have hval : validateIPVersions [⟨4⟩, ⟨6⟩] ["city", "anon"]
      = .error (mixMsg [⟨4⟩, ⟨6⟩] ["city", "anon"]) := by
    apply h.2.2.1
    · intro p hp
      simp [List.zip] at hp
      rcases hp with hp | hp <;> simp [hp]
    · exact ⟨("city", ⟨4⟩), by simp [List.zip], rfl⟩
    · exact ⟨("anon", ⟨6⟩), by simp [List.zip], rfl⟩
  have h4 := h.2.2.2 (by decide) rfl hval
  exact ⟨h4.1, h4.2 (fun m => m.dbNamesList)⟩

/-! ## Record walking (claim C9)

Model of walkPath and describeWalkPath from the merge driver
(src/unnamed/part_006): navigate a decoded record by normalised path
segments; missing keys and out-of-range indices yield missing (none)
without an error, segment-kind against node-kind mismatches are errors. -/

/-- Shown form of a segment inside describeWalkPath. -/
def segShow : RawSeg → String
  | .str s => s
  | .int i => toString i
  | .bad tag => tag

/-- Model of describeWalkPath: the consumed segments in brackets. -/
def describeWalkPath (path : List RawSeg) : String :=
  if path = [] then "[]"
  else "[" ++ String.intercalate " " (path.map segShow) ++ "]"

/-- The walking loop of walkPath: consume segments left to right against
the current node, tracking the consumed prefix for error messages. -/
def goWalk (consumed : List RawSeg) (current : DataType) :
    List RawSeg → Except String (Option DataType)
  | [] => .ok (some current)
  | .str k :: rest =>
    match current with
    | .M m =>
      match lookupA m k with
      | none => .ok none
      | some v => goWalk (consumed ++ [.str k]) v rest
    | _ =>
      .error ("navigating path " ++ describeWalkPath consumed ++ " segment \"" ++ k
        ++ "\": expected map but found " ++ goTypeName current)
  | .int i :: rest =>
    match current with
    | .L xs =>
      let j : Int := if i < 0 then (xs.length : Int) + i else i
      if j < 0 ∨ (xs.length : Int) ≤ j then .ok none
      else
        match xs[j.toNat]? with
        | some v => goWalk (consumed ++ [.int i]) v rest
        | none => .ok none
    | _ =>
      .error ("navigating path " ++ describeWalkPath consumed ++ " segment " ++ toString i
        ++ ": expected slice but found " ++ goTypeName current)
  | .bad tag :: _ =>
    .error ("navigating path " ++ describeWalkPath consumed
      ++ ": unsupported segment type " ++ tag)

/-- Model of walkPath: the empty path returns the whole record, else the
walk starts at the record root. -/
def walkPathGo (root : MMap) (path : List RawSeg) : Except String (Option DataType) :=
  if path = [] then .ok (some (.M root)) else goWalk [] (.M root) path

/-- The per-column extraction loop of extractAndProcess, reduced to the
walking step: a walk error is wrapped with the column name and aborts the
whole extraction (and with it the merge). -/
def extractColumns : List (String × MMap × List RawSeg) → Except String (List (Option DataType))
  | [] => .ok []
  | (name, record, path) :: rest =>
    match walkPathGo record path with
    | .error e => .error ("decoding path for column " ++ name ++ ": " ++ e)
    | .ok v => (extractColumns rest).map (v :: ·)

/-- C9 (confirmed): record-walk semantics.  The empty path returns the
whole record; a string segment on a map with an absent key yields missing
with no error; an integer segment whose index, with negative values
counted from the end, falls outside the sequence yields missing with no
error; a string segment on a non-map node or an integer segment on a
non-sequence node is an error; present keys and in-bounds indices continue
the walk; and a walk error aborts the column extraction, wrapped with the
column name. -/
theorem C9_record_walk_semantics (root : MMap) (m : List (String × DataType))
    (xs : List DataType) (k : String) (i : Int) (rest consumed path : List RawSeg)
    (current : DataType) (name : String) (e : String)
    (more : List (String × MMap × List RawSeg)) :
    walkPathGo root [] = .ok (some (.M root)) ∧
    (lookupA m k = none → goWalk consumed (.M m) (.str k :: rest) = .ok none) ∧
    (∀ v, lookupA m k = some v →
      goWalk consumed (.M m) (.str k :: rest) = goWalk (consumed ++ [.str k]) v rest) ∧
    ((((if i < 0 then (xs.length : Int) + i else i) < 0 ∨
        (xs.length : Int) ≤ (if i < 0 then (xs.length : Int) + i else i))) →
      goWalk consumed (.L xs) (.int i :: rest) = .ok none) ∧
    (∀ v, (0 : Int) ≤ (if i < 0 then (xs.length : Int) + i else i) →
      xs[(if i < 0 then (xs.length : Int) + i else i).toNat]? = some v →
      goWalk consumed (.L xs) (.int i :: rest) = goWalk (consumed ++ [.int i]) v rest) ∧
    ((∀ mm, current ≠ .M mm) →
      goWalk consumed current (.str k :: rest)
        = .error ("navigating path " ++ describeWalkPath consumed ++ " segment \"" ++ k
            ++ "\": expected map but found " ++ goTypeName current)) ∧
    ((∀ ys, current ≠ .L ys) →
      goWalk consumed current (.int i :: rest)
        = .error ("navigating path " ++ describeWalkPath consumed ++ " segment " ++ toString i
            ++ ": expected slice but found " ++ goTypeName current)) ∧
    (walkPathGo root path = .error e →
      extractColumns ((name, root, path) :: more)
        = .error ("decoding path for column " ++ name ++ ": " ++ e)) := by
  refine ⟨rfl, ?_, ?_, ?_, ?_, ?_, ?_, ?_⟩
  · intro h
    conv_lhs => rw [goWalk.eq_def]
    simp [h]
  · intro v h
    conv_lhs => rw [goWalk.eq_def]
    simp [h]
  · intro h
    conv_lhs => rw [goWalk.eq_def]
    dsimp only
    rw [if_pos h]
  · intro v hge hv
    have hlt : (if i < 0 then (xs.length : Int) + i else i).toNat < xs.length :=
      (List.getElem?_eq_some_iff.mp hv).1
    conv_lhs => rw [goWalk.eq_def]
    dsimp only
    rw [if_neg (by omega), hv]
  · intro h
    cases current with
    | M mm => exact absurd rfl (h mm)
    | B b => rfl
    | S s => rfl
    | U n => rfl
    | L ys => rfl
  · intro h
    cases current with
    | L ys => exact absurd rfl (h ys)
    | B b => rfl
    | S s => rfl
    | U n => rfl
    | M mm => rfl
  · intro h
    simp [extractColumns, h]

/-- Witness for C9 at concrete records: an absent key and an out-of-bounds
negative index give missing, a string segment on a slice errors, and the
error aborts extraction with the column name. -/
theorem C9_record_walk_semantics_witness :
    walkPathGo [("country", DataType.M [("iso_code", DataType.S "US")])] []
      = .ok (some (.M [("country", DataType.M [("iso_code", DataType.S "US")])])) ∧
    goWalk [] (.M [("country", DataType.M [("iso_code", DataType.S "US")])])
        [.str "city"] = .ok none ∧
    goWalk [] (.L [DataType.S "a", DataType.S "b"]) [.int (-3)] = .ok none ∧
    goWalk [] (.L [DataType.S "a", DataType.S "b"]) [.str "city"]
      = .error ("navigating path [] segment \"city\": expected map but found mmdbtype.Slice") ∧
    extractColumns [("iso", [("x", DataType.L [])], [.str "x", .str "y"])]
      = .error ("decoding path for column iso: navigating path [x] segment \"y\": "
          ++ "expected map but found mmdbtype.Slice") := by
  have h := C9_record_walk_semantics [("country", DataType.M [("iso_code", DataType.S "US")])]
    [("country", DataType.M [("iso_code", DataType.S "US")])]
    [DataType.S "a", DataType.S "b"] "city" (-3) [] [] [.str "x", .str "y"]
    (.L [DataType.S "a", DataType.S "b"]) "iso"
    ("navigating path [x] segment \"y\": expected map but found mmdbtype.Slice") []
  refine ⟨h.1, h.2.1 rfl, h.2.2.2.1 (by norm_num), ?_, ?_⟩
  · exact h.2.2.2.2.2.1 (fun mm => by simp)
  · exact (C9_record_walk_semantics [("x", DataType.L [])] [] [] "" 0 [] [] [.str "x", .str "y"]
      (.B true) "iso"
      ("navigating path [x] segment \"y\": expected map but found mmdbtype.Slice") []).2.2.2.2.2.2.2
      (by rfl)

/-! ## Split writer routing (claim C10)

Model of SplitRowWriter in internal/writer/split.go: rows and ranges are
routed to the IPv4 or IPv6 sink by Is4 of the prefix address (for rows)
or the range start (for ranges); a missing sink for the selected family
is an error; ranges go natively to a range-capable sink and are otherwise
decomposed into CIDR rows. -/

/-- Underlying writer: whether it exposes a native WriteRange. -/
structure UnderWriter where
  hasRange : Bool

/-- SplitRowWriter: the optional IPv4 and IPv6 sinks. -/
structure SplitRW where
  ipv4 : Option UnderWriter
  ipv6 : Option UnderWriter

/-- An operation tagged with the sink that received it. -/
inductive RoutedOp where
  | toV4 (op : WOp)
  | toV6 (op : WOp)

/-- SplitRowWriter.WriteRow. -/
def SplitRW.writeRow (s : SplitRW) (p : Cidr) (d : MMap) : Except String (List RoutedOp) :=
  if (p.addr).is4 then
    match s.ipv4 with
    | none => .error "no IPv4 writer configured"
    | some _ => .ok [.toV4 (.row p d)]
  else
    match s.ipv6 with
    | none => .error "no IPv6 writer configured"
    | some _ => .ok [.toV6 (.row p d)]

/-- SplitRowWriter.WriteRange. -/
def SplitRW.writeRange (s : SplitRW) (startA endA : IPAddr) (d : MMap) :
    Except String (List RoutedOp) :=
  if startA.is4 then
    match s.ipv4 with
    | none => .error "no IPv4 writer configured"
    | some w =>
      if w.hasRange then .ok [.toV4 (.rng startA endA d)]
      else .ok ((rangeToCidrs startA endA).map fun c => .toV4 (.row c d))
  else
    match s.ipv6 with
    | none => .error "no IPv6 writer configured"
    | some w =>
      if w.hasRange then .ok [.toV6 (.rng startA endA d)]
      else .ok ((rangeToCidrs startA endA).map fun c => .toV6 (.row c d))

/-- An IPv6 value in the IPv4-mapped range (::ffff:0:0/96). -/
def mapped4in6 (v : Nat) : Prop := 0xffff * 2 ^ 32 ≤ v ∧ v < 0xffff * 2 ^ 32 + 2 ^ 32

/-- Tag check: the operation went to the IPv6 sink. -/
def RoutedOp.isV6 : RoutedOp → Bool
  | .toV6 _ => true
  | .toV4 _ => false

/-- C10 (confirmed): a prefix in IPv4-mapped 4-in-6 form has Is4 false in
netip, so WriteRow and WriteRange route it to the IPv6 sink, never the
IPv4 one, and fail with the no-IPv6-writer error when that sink is absent;
only the 4-byte IPv4 form routes to the IPv4 sink. -/
theorem C10_mapped_4in6_routes_to_v6 (s : SplitRW) (p : Cidr) (d : MMap)
    (endA : IPAddr) (w : UnderWriter) (v : Nat) :
    (p.is4 = false → mapped4in6 p.val →
      (s.ipv6 = none → s.writeRow p d = .error "no IPv6 writer configured") ∧
      (s.ipv6 = some w → s.writeRow p d = .ok [.toV6 (.row p d)])) ∧
    (mapped4in6 v →
      (s.ipv6 = none →
        s.writeRange (.v6 v) endA d = .error "no IPv6 writer configured") ∧
      (s.ipv6 = some w →
        ∃ ops, s.writeRange (.v6 v) endA d = .ok ops ∧ ∀ op ∈ ops, op.isV6 = true)) ∧
    (p.is4 = true →
      (s.ipv4 = none → s.writeRow p d = .error "no IPv4 writer configured") ∧
      (s.ipv4 = some w → s.writeRow p d = .ok [.toV4 (.row p d)])) := by
  refine ⟨?_, ?_, ?_⟩
  · intro h4 _
    have ha : (p.addr).is4 = false := by simp [Cidr.addr, h4, IPAddr.is4]
    constructor
    · intro h6
      simp [SplitRW.writeRow, ha, h6]
    · intro h6
      simp [SplitRW.writeRow, ha, h6]
  · intro _
    have ha : (IPAddr.v6 v).is4 = false := rfl
    constructor
    · intro h6
      simp [SplitRW.writeRange, ha, h6]
    · intro h6
      by_cases hw : w.hasRange
      · exact ⟨[.toV6 (.rng (.v6 v) endA d)], by simp [SplitRW.writeRange, ha, h6, hw],
          by intro op hop; simp at hop; subst hop; rfl⟩
      · refine ⟨(rangeToCidrs (.v6 v) endA).map fun c => .toV6 (.row c d),
          by simp [SplitRW.writeRange, ha, h6, hw], ?_⟩
        intro op hop
        simp only [List.mem_map] at hop
        obtain ⟨c, _, hc⟩ := hop
        subst hc
        rfl
  · intro h4
    have ha : (p.addr).is4 = true := by simp [Cidr.addr, h4, IPAddr.is4]
    constructor
    · intro hn
      simp [SplitRW.writeRow, ha, hn]
    · intro hn
      simp [SplitRW.writeRow, ha, hn]

/-- Witness for C10 at ::ffff:10.0.0.0/120: with no IPv6 sink both write
paths fail with the no-IPv6-writer error even though the address encodes
an IPv4 network; with an IPv6 sink the row goes to it. -/
theorem C10_mapped_4in6_routes_to_v6_witness :
    SplitRW.writeRow ⟨some ⟨true⟩, none⟩ ⟨false, 0xffff00000000 + 0x0A000000, 120⟩
        [("c", DataType.S "US")]
      = .error "no IPv6 writer configured" ∧
    SplitRW.writeRange ⟨some ⟨true⟩, none⟩ (.v6 (0xffff00000000 + 0x0A000000))
        (.v6 (0xffff00000000 + 0x0A0000FF)) [("c", DataType.S "US")]
      = .error "no IPv6 writer configured" ∧
    SplitRW.writeRow ⟨none, some ⟨true⟩⟩ ⟨false, 0xffff00000000 + 0x0A000000, 120⟩
        [("c", DataType.S "US")]
      = .ok [.toV6 (.row ⟨false, 0xffff00000000 + 0x0A000000, 120⟩ [("c", DataType.S "US")])] := by
  have h1 := C10_mapped_4in6_routes_to_v6 ⟨some ⟨true⟩, none⟩
    ⟨false, 0xffff00000000 + 0x0A000000, 120⟩ [("c", DataType.S "US")]
    (.v6 (0xffff00000000 + 0x0A0000FF)) ⟨true⟩ (0xffff00000000 + 0x0A000000)
  have h2 := C10_mapped_4in6_routes_to_v6 ⟨none, some ⟨true⟩⟩
    ⟨false, 0xffff00000000 + 0x0A000000, 120⟩ [("c", DataType.S "US")]
    (.v6 (0xffff00000000 + 0x0A0000FF)) ⟨true⟩ (0xffff00000000 + 0x0A000000)
  exact ⟨(h1.1 rfl (by constructor <;> norm_num)).1 rfl,
    (h1.2.1 (by constructor <;> norm_num)).1 rfl,
    (h2.1 rfl (by constructor <;> norm_num)).2 rfl⟩

/-! ## Nested-output assembly (claims C6 and C7)

Model of mergeMaps, mergeNestedValue and buildNestedData from
internal/writer/mmdb.go at the value level.  Go maps are modelled as
binding lists; maps.Copy into a fresh map followed by in-place updates
becomes pure insertA updates on the copied value; Go's unspecified map
iteration order is fixed to list order. -/

/-- Go map key uniqueness: all keys of the binding list are distinct. -/
def uniqKeys (m : MMap) : Prop := (m.map Prod.fst).Nodup

/-- Both values are maps (the mergeable case of mergeMaps). -/
def bothMaps : DataType → DataType → Bool
  | .M _, .M _ => true
  | _, _ => false

/-- The field-conflict error message of mergeMaps. -/
def fieldConflictMsg (k : String) (dv sv : DataType) : String :=
  "field conflict: key " ++ k ++ " already exists (cannot merge "
    ++ goTypeName dv ++ " with " ++ goTypeName sv ++ ")"

mutual

/-- Resolution of one key present in both sides of mergeMaps: when both
values are maps they merge recursively (errors propagated unwrapped, the
merged map re-wrapped), otherwise the field-conflict error naming the key
and the two Go type names. -/
def mergeVal (k : String) : DataType → DataType → Except String DataType
  | .M dm, .M sm => (mergeGo dm sm).map .M
  | dv, sv => .error (fieldConflictMsg k dv sv)
termination_by structural _x y => y

/-- Model of mergeMaps: the accumulator starts as the copy of dest and the
loop walks the source bindings; a key in both sides is resolved by
mergeVal, a fresh key is inserted.  Structural recursion descends into the
source value, so this is a total kernel-computable model of the Go
recursion. -/
def mergeGo (acc : MMap) : MMap → Except String MMap
  | [] => .ok acc
  | (k, sv) :: rest =>
    match lookupA acc k with
    | some dv =>
      match mergeVal k dv sv with
      | .error e => .error e
      | .ok merged => mergeGo (insertA acc k merged) rest
    | none => mergeGo (insertA acc k sv) rest
termination_by structural src => src

end

/-- mergeMaps(dest, source): merged copy or field-conflict error. -/
def mergeMaps (dest source : MMap) : Except String MMap := mergeGo dest source

/-- The final-key step of mergeNestedValue: merge a map value into an
existing map binding, reject a map onto a non-map, and otherwise just set
the value. -/
def mergeFinalKey (pathDesc : String) (current : MMap) (k : String) (value : DataType) :
    Except String MMap :=
  match value with
  | .M vm =>
    match lookupA current k with
    | some existing =>
      match existing with
      | .M em =>
        match mergeMaps em vm with
        | .error e => .error e
        | .ok merged => .ok (insertA current k (.M merged))
      | _ =>
        .error ("cannot merge map into non-map at path " ++ pathDesc
          ++ ": existing value is " ++ goTypeName existing)
    | none => .ok (insertA current k value)
  | _ => .ok (insertA current k value)

/-- The navigation loop of mergeNestedValue over the path, carrying the
printed full path for error messages: descend along string keys, copying
existing nested maps and creating missing ones, then apply the final-key
step. -/
def mergeNVGo (pathDesc : String) (value : DataType) (root : MMap) :
    List RawSeg → Except String MMap
  | [] => .ok root
  | [seg] =>
    match seg with
    | .str k => mergeFinalKey pathDesc root k value
    | other => .error ("non-string final key: " ++ segShow other)
  | seg :: rest =>
    match seg with
    | .str k =>
      match lookupA root k with
      | some (.M sub) =>
        match mergeNVGo pathDesc value sub rest with
        | .error e => .error e
        | .ok newSub => .ok (insertA root k (.M newSub))
      | some other =>
        .error ("path conflict at " ++ k ++ ": expected map, got " ++ goTypeName other)
      | none =>
        match mergeNVGo pathDesc value [] rest with
        | .error e => .error e
        | .ok newSub => .ok (insertA root k (.M newSub))
    | other => .error ("non-string key: " ++ segShow other)

/-- Model of mergeNestedValue: empty path deep-merges a map value into the
root (error on a non-map value), else the navigation loop runs. -/
def mergeNestedValue (root : MMap) (path : List RawSeg) (value : DataType) :
    Except String MMap :=
  match path with
  | [] =>
    match value with
    | .M vm => mergeMaps root vm
    | _ => .error ("cannot set non-map value at root with empty path, got " ++ goTypeName value)
  | _ => mergeNVGo (describeWalkPath path) value root path

/-- Output column as buildNestedData consumes it. -/
structure OutColumn where
  name : String
  outputPath : Option (List RawSeg)

/-- The column loop of buildNestedData. -/
def buildNestedGo (flatData : MMap) : List OutColumn → MMap → Except String MMap
  | [], root => .ok root
  | col :: rest, root =>
    match lookupA flatData col.name with
    | none => buildNestedGo flatData rest root
    | some value =>
      match mergeNestedValue root (col.outputPath.getD [.str col.name]) value with
      | .error e => .error ("setting column " ++ col.name ++ ": " ++ e)
      | .ok root2 => buildNestedGo flatData rest root2

/-- Model of buildNestedData: place every present column value at its
output path (default: the column name), starting from an empty root. -/
def buildNestedData (cols : List OutColumn) (flatData : MMap) : Except String MMap :=
  buildNestedGo flatData cols []

/-! ## Lookup and merge lemmas (claim C6) -/

theorem lookupA_insertA_self (m : MMap) (k : String) (v : DataType) :
    lookupA (insertA m k v) k = some v := by
  induction m with
  | nil => simp [insertA, lookupA]
  | cons p rest ih =>
    obtain ⟨k2, w⟩ := p
    by_cases h : k2 = k
    · subst h; simp [insertA, lookupA]
    · simp [insertA, lookupA, h, ih]

theorem lookupA_insertA_ne (m : MMap) (k k2 : String) (v : DataType) (h : k2 ≠ k) :
    lookupA (insertA m k2 v) k = lookupA m k := by
  induction m with
  | nil => simp [insertA, lookupA, h]
  | cons p rest ih =>
    obtain ⟨k3, w⟩ := p
    by_cases h3 : k3 = k2
    · subst h3; simp [insertA, lookupA, h]
    · simp [insertA, lookupA, h3, ih]

theorem uniqKeys_cons {k : String} {v : DataType} {rest : MMap}
    (h : uniqKeys ((k, v) :: rest)) : (∀ p ∈ rest, p.1 ≠ k) ∧ uniqKeys rest := by
  unfold uniqKeys at h
  simp only [List.map_cons, List.nodup_cons] at h
  refine ⟨?_, h.2⟩
  intro p hp he
  exact h.1 (List.mem_map.mpr ⟨p, hp, he⟩)

theorem mergeGo_preserve :
    ∀ src acc res (k : String), (∀ p ∈ src, p.1 ≠ k) → mergeGo acc src = .ok res →
      lookupA res k = lookupA acc k := by
  intro src
  induction src with
  | nil =>
    intro acc res k _ h
    simp only [mergeGo] at h
    cases h
    rfl
  | cons p rest ih =>
    intro acc res k hk h
    obtain ⟨k2, sv⟩ := p
    have hk2 : k2 ≠ k := hk (k2, sv) (by simp)
    simp only [mergeGo] at h
    cases h2 : lookupA acc k2 with
    | none =>
      simp only [h2] at h
      rw [ih _ _ k (fun p hp => hk p (by simp [hp])) h]
      exact lookupA_insertA_ne acc k k2 sv hk2
    | some dv =>
      simp only [h2] at h
      cases h3 : mergeVal k2 dv sv with
      | error e => simp only [h3] at h <;> exact Except.noConfusion h
      | ok merged =>
        simp only [h3] at h
        rw [ih _ _ k (fun p hp => hk p (by simp [hp])) h]
        exact lookupA_insertA_ne acc k k2 merged hk2

theorem mergeGo_new :
    ∀ src acc res (k : String) v, uniqKeys src → lookupA acc k = none →
      lookupA src k = some v → mergeGo acc src = .ok res → lookupA res k = some v := by
  intro src
  induction src with
  | nil => intro acc res k v _ _ hsrc _; simp [lookupA] at hsrc
  | cons p rest ih =>
    intro acc res k v huniq hacc hsrc h
    obtain ⟨k2, sv⟩ := p
    obtain ⟨hnot, huniq2⟩ := uniqKeys_cons huniq
    simp only [mergeGo] at h
    by_cases hkk : k2 = k
    · subst hkk
      rw [show lookupA ((k2, sv) :: rest) k2 = some sv from by simp [lookupA]] at hsrc
      cases hsrc
      simp only [hacc] at h
      rw [mergeGo_preserve rest _ res k2 hnot h]
      exact lookupA_insertA_self acc k2 v
    · have hsrc2 : lookupA rest k = some v := by
        simpa [lookupA, hkk] using hsrc
      cases h2 : lookupA acc k2 with
      | none =>
        simp only [h2] at h
        exact ih _ res k v huniq2
          (by rw [lookupA_insertA_ne acc k k2 sv hkk]; exact hacc) hsrc2 h
      | some dv =>
        simp only [h2] at h
        cases h3 : mergeVal k2 dv sv with
        | error e => simp only [h3] at h <;> exact Except.noConfusion h
        | ok merged =>
          simp only [h3] at h
          exact ih _ res k v huniq2
            (by rw [lookupA_insertA_ne acc k k2 merged hkk]; exact hacc) hsrc2 h

theorem mergeGo_both :
    ∀ src acc res (k : String) dm sm, uniqKeys src → lookupA acc k = some (.M dm) →
      lookupA src k = some (.M sm) → mergeGo acc src = .ok res →
      ∃ mm, mergeGo dm sm = .ok mm ∧ lookupA res k = some (.M mm) := by
  intro src
  induction src with
  | nil => intro acc res k dm sm _ _ hsrc _; simp [lookupA] at hsrc
  | cons p rest ih =>
    intro acc res k dm sm huniq hacc hsrc h
    obtain ⟨k2, sv⟩ := p
    obtain ⟨hnot, huniq2⟩ := uniqKeys_cons huniq
    simp only [mergeGo] at h
    by_cases hkk : k2 = k
    · subst hkk
      rw [show lookupA ((k2, sv) :: rest) k2 = some sv from by simp [lookupA]] at hsrc
      cases hsrc
      simp only [hacc] at h
      cases h4 : mergeGo dm sm with
      | error e =>
        simp only [show mergeVal k2 (.M dm) (.M sm) = .error e from by
          simp [mergeVal, h4, Except.map]] at h
        simp at h
      | ok mm =>
        simp only [show mergeVal k2 (.M dm) (.M sm) = .ok (.M mm) from by
          simp [mergeVal, h4, Except.map]] at h
        refine ⟨mm, rfl, ?_⟩
        rw [mergeGo_preserve rest _ res k2 hnot h]
        exact lookupA_insertA_self acc k2 (.M mm)
    · have hsrc2 : lookupA rest k = some (.M sm) := by
        simpa [lookupA, hkk] using hsrc
      cases h2 : lookupA acc k2 with
      | none =>
        simp only [h2] at h
        exact ih _ res k dm sm huniq2
          (by rw [lookupA_insertA_ne acc k k2 sv hkk]; exact hacc) hsrc2 h
      | some dv =>
        simp only [h2] at h
        cases h3 : mergeVal k2 dv sv with
        | error e => simp only [h3] at h <;> exact Except.noConfusion h
        | ok merged =>
          simp only [h3] at h
          exact ih _ res k dm sm huniq2
            (by rw [lookupA_insertA_ne acc k k2 merged hkk]; exact hacc) hsrc2 h

theorem mergeGo_ok_bothMaps :
    ∀ src acc res, uniqKeys src → mergeGo acc src = .ok res →
      ∀ (k : String) dv sv, lookupA acc k = some dv → lookupA src k = some sv →
      bothMaps dv sv = true := by
  intro src
  induction src with
  | nil => intro acc res _ _ k dv sv _ hsrc; simp [lookupA] at hsrc
  | cons p rest ih =>
    intro acc res huniq h k dv sv hacc hsrc
    obtain ⟨k2, sv2⟩ := p
    obtain ⟨hnot, huniq2⟩ := uniqKeys_cons huniq
    simp only [mergeGo] at h
    by_cases hkk : k2 = k
    · subst hkk
      rw [show lookupA ((k2, sv2) :: rest) k2 = some sv2 from by simp [lookupA]] at hsrc
      cases hsrc
      simp only [hacc] at h
      cases h3 : mergeVal k2 dv sv with
      | error e => simp only [h3] at h <;> exact Except.noConfusion h
      | ok merged =>
        cases dv with
        | M dm =>
          cases sv with
          | M sm => rfl
          | B b => simp [mergeVal] at h3
          | S s => simp [mergeVal] at h3
          | U n => simp [mergeVal] at h3
          | L xs => simp [mergeVal] at h3
        | B b => simp [mergeVal] at h3
        | S s => simp [mergeVal] at h3
        | U n => simp [mergeVal] at h3
        | L xs => simp [mergeVal] at h3
    · have hsrc2 : lookupA rest k = some sv := by
        simpa [lookupA, hkk] using hsrc
      cases h2 : lookupA acc k2 with
      | none =>
        simp only [h2] at h
        exact ih _ res huniq2 h k dv sv
          (by rw [lookupA_insertA_ne acc k k2 sv2 hkk]; exact hacc) hsrc2
      | some dv2 =>
        simp only [h2] at h
        cases h3 : mergeVal k2 dv2 sv2 with
        | error e => simp only [h3] at h <;> exact Except.noConfusion h
        | ok merged =>
          simp only [h3] at h
          exact ih _ res huniq2 h k dv sv
            (by rw [lookupA_insertA_ne acc k k2 merged hkk]; exact hacc) hsrc2

theorem lookupA_none_key (source : MMap) (k : String) (h : lookupA source k = none) :
    ∀ p ∈ source, p.1 ≠ k := by
  induction source with
  | nil => intro p hp; simp at hp
  | cons q rest ih =>
    intro p hp
    obtain ⟨k2, v⟩ := q
    by_cases hq : k2 = k
    · subst hq; simp [lookupA] at h
    · rcases List.mem_cons.mp hp with he | ht
      · subst he; exact hq
      · exact ih (by simpa [lookupA, hq] using h) p ht

/-- C6 (confirmed): deep-merge semantics and field conflicts.  For a
successful merge, keys present only in dest keep their dest value and keys
present only in source their source value; a key present in both sides has
been merged recursively when both values are maps, and a successful merge
implies every common key held maps on both sides; a common key whose
values are not both maps (at the head of the walk) fails with the
field-conflict error naming that key; the concrete two-column traits
scenario fails per-row assembly with the field-conflict error naming
is_anonymous, while engine-side construction of the same configuration
succeeds (output-path collisions are not checked at construction). -/
theorem C6_deep_merge_field_conflicts (dest source res rest : MMap) (k : String)
    (v dv sv : DataType) (dm sm : MMap) :
    (mergeMaps dest source = .ok res → lookupA source k = none →
      lookupA res k = lookupA dest k) ∧
    (uniqKeys source → lookupA dest k = none → lookupA source k = some v →
      mergeMaps dest source = .ok res → lookupA res k = some v) ∧
    (uniqKeys source → lookupA dest k = some (.M dm) → lookupA source k = some (.M sm) →
      mergeMaps dest source = .ok res →
      ∃ mm, mergeMaps dm sm = .ok mm ∧ lookupA res k = some (.M mm)) ∧
    (uniqKeys source → mergeMaps dest source = .ok res →
      lookupA dest k = some dv → lookupA source k = some sv → bothMaps dv sv = true) ∧
    (lookupA dest k = some dv → bothMaps dv sv = false →
      mergeMaps dest ((k, sv) :: rest) = .error (fieldConflictMsg k dv sv)) ∧
    (buildNestedData [⟨"c1", some [.str "traits"]⟩, ⟨"c2", some [.str "traits"]⟩]
        [("c1", .M [("is_anonymous", .B true)]), ("c2", .M [("is_anonymous", .B false)])]
      = .error ("setting column c2: field conflict: key is_anonymous already exists "
          ++ "(cannot merge mmdbtype.Bool with mmdbtype.Bool)")) ∧
    (NewMergerCheck [("city", ⟨4⟩)]
        ⟨[⟨"c1", "city", [], some [.str "traits"]⟩,
          ⟨"c2", "city", [], some [.str "traits"]⟩], none⟩
      = .ok ⟨["city"], [⟨4⟩], false⟩) := by
  refine ⟨?_, ?_, ?_, ?_, ?_, by rfl, by rfl⟩
  · intro h hnone
    exact mergeGo_preserve source dest res k (lookupA_none_key source k hnone) h
  · intro hu hdn hsv h
    exact mergeGo_new source dest res k v hu hdn hsv h
  · intro hu hdm hsm h
    exact mergeGo_both source dest res k dm sm hu hdm hsm h
  · intro hu h hdv hsv
    exact mergeGo_ok_bothMaps source dest res hu h k dv sv hdv hsv
  · intro hdv hnb
    have hmv : mergeVal k dv sv = .error (fieldConflictMsg k dv sv) := by
      cases dv <;> cases sv <;> first
        | rfl
        | simp [bothMaps] at hnb
    simp only [mergeMaps, mergeGo, hdv, hmv]

/-- Witness for C6 at concrete maps: a disjoint key from each side is
kept, a common map-valued key is merged recursively, a common key with
non-map values conflicts with the message naming the key. -/
theorem C6_deep_merge_field_conflicts_witness :
    lookupA [("a", DataType.U 1), ("m", DataType.M [("x", DataType.U 2), ("y", DataType.U 4)]),
        ("b", DataType.U 3)] "a" = lookupA [("a", DataType.U 1),
        ("m", DataType.M [("x", DataType.U 2)])] "a" ∧
    lookupA [("a", DataType.U 1), ("m", DataType.M [("x", DataType.U 2), ("y", DataType.U 4)]),
        ("b", DataType.U 3)] "b" = some (DataType.U 3) ∧
    (∃ mm, mergeMaps [("x", DataType.U 2)] [("y", DataType.U 4)] = .ok mm ∧
      lookupA [("a", DataType.U 1), ("m", DataType.M [("x", DataType.U 2), ("y", DataType.U 4)]),
        ("b", DataType.U 3)] "m" = some (.M mm)) ∧
    mergeMaps [("t", DataType.B true)] [("t", DataType.B false)]
      = .error (fieldConflictMsg "t" (DataType.B true) (DataType.B false)) := by
  have h := C6_deep_merge_field_conflicts
    [("a", DataType.U 1), ("m", DataType.M [("x", DataType.U 2)])]
    [("b", DataType.U 3), ("m", DataType.M [("y", DataType.U 4)])]
    [("a", DataType.U 1), ("m", DataType.M [("x", DataType.U 2), ("y", DataType.U 4)]),
      ("b", DataType.U 3)]
    [] "a" (DataType.U 3) (DataType.B true) (DataType.B false) [] []
  have h2 := C6_deep_merge_field_conflicts
    [("a", DataType.U 1), ("m", DataType.M [("x", DataType.U 2)])]
    [("b", DataType.U 3), ("m", DataType.M [("y", DataType.U 4)])]
    [("a", DataType.U 1), ("m", DataType.M [("x", DataType.U 2), ("y", DataType.U 4)]),
      ("b", DataType.U 3)]
    [] "b" (DataType.U 3) (DataType.B true) (DataType.B false) [] []
  have h3 := C6_deep_merge_field_conflicts
    [("a", DataType.U 1), ("m", DataType.M [("x", DataType.U 2)])]
    [("b", DataType.U 3), ("m", DataType.M [("y", DataType.U 4)])]
    [("a", DataType.U 1), ("m", DataType.M [("x", DataType.U 2), ("y", DataType.U 4)]),
      ("b", DataType.U 3)]
    [] "m" (DataType.U 3) (DataType.B true) (DataType.B false)
    [("x", DataType.U 2)] [("y", DataType.U 4)]
  have h4 := C6_deep_merge_field_conflicts
    [("t", DataType.B true)] [] [] [] "t" (DataType.U 3)
    (DataType.B true) (DataType.B false) [] []
  refine ⟨h.1 rfl rfl, h2.2.1 (by unfold uniqKeys; decide) rfl rfl rfl, ?_, h4.2.2.2.2.1 rfl rfl⟩
  exact h3.2.2.1 (by unfold uniqKeys; decide) rfl rfl rfl

/-! ## Store-level nested-output builder (claim C7)

Go maps are mutable reference values, so the copy-on-write discipline of
mergeMaps and mergeNestedValue is about which map objects the code writes
to.  This section embeds the same functions at the reference level: a
store of map nodes, where map-typed values are references into the store
and other values are opaque scalars.  make + maps.Copy is an allocation of
a copy, and map assignment is a write to a node.  The frame theorems below
state that no pre-existing node is ever written, and the refinement
theorems state that the store-level functions compute exactly the pure
functions of the extracted trees, which yields the run-twice property. -/

/-- Value slot of a store node: an opaque non-map scalar or a reference to
a map node. -/
inductive SVal where
  | scalar (d : DataType)
  | mref (r : Nat)

/-- A map object: its bindings. -/
abbrev SNode := List (String × SVal)

/-- The heap of map objects. -/
abbrev SStore := List SNode

/-- Dereference a node (the empty node for a dangling reference). -/
def readN (σ : SStore) (r : Nat) : SNode := σ.getD r []

/-- Overwrite a node in place. -/
def writeN (σ : SStore) (r : Nat) (nd : SNode) : SStore := σ.set r nd

/-- Go map lookup on a node. -/
def lookupS (n : SNode) (k : String) : Option SVal :=
  match n with
  | [] => none
  | (k2, v) :: rest => if k2 == k then some v else lookupS rest k

/-- Go map assignment on a node. -/
def insertS (n : SNode) (k : String) (v : SVal) : SNode :=
  match n with
  | [] => [(k, v)]
  | (k2, w) :: rest => if k2 == k then (k, v) :: rest else (k2, w) :: insertS rest k v

/-- Go type name of a slot value (the %T verb). -/
def svTypeName : SVal → String
  | .scalar d => goTypeName d
  | .mref _ => "mmdbtype.Map"

/-- The field-conflict message at the store level. -/
def fieldConflictMsgS (k : String) (dv sv : SVal) : String :=
  "field conflict: key " ++ k ++ " already exists (cannot merge "
    ++ svTypeName dv ++ " with " ++ svTypeName sv ++ ")"

/-- The loop of mergeMaps over the source bindings at the store level: the
accumulating result node resR is written in place; a key on both sides
merges through the recursive merge f when both are map references and
conflicts otherwise. -/
def mergeLoopS (f : SStore → Nat → Nat → SStore × Except String Nat) (resR : Nat) :
    SStore → List (String × SVal) → SStore × Except String Nat
  | σ, [] => (σ, .ok resR)
  | σ, (k, sv) :: rest =>
    match lookupS (readN σ resR) k with
    | some dv =>
      match dv, sv with
      | .mref rd, .mref rs =>
        match f σ rd rs with
        | (σ2, .error e) => (σ2, .error e)
        | (σ2, .ok mr) =>
          mergeLoopS f resR (writeN σ2 resR (insertS (readN σ2 resR) k (.mref mr))) rest
      | _, _ => (σ, .error (fieldConflictMsgS k dv sv))
    | none => mergeLoopS f resR (writeN σ resR (insertS (readN σ resR) k sv)) rest

/-- Store-level mergeMaps: allocate the result as a copy of the dest node
(make + maps.Copy) and run the loop over the source node; the fuel bounds
the nesting depth descended into and the depth of the source tree always
suffices. -/
def mergeMapsS : Nat → SStore → Nat → Nat → SStore × Except String Nat
  | 0, σ, _, _ => (σ, .error "merge recursion depth exhausted")
  | fuel + 1, σ, destR, srcR =>
    mergeLoopS (mergeMapsS fuel) σ.length (σ ++ [readN σ destR]) (readN σ srcR)

/-- Store-level final-key step of mergeNestedValue, writing the current
(freshly copied) node in place. -/
def mergeFinalKeyS (fuel : Nat) (σ : SStore) (curR : Nat) (k : String) (value : SVal) :
    SStore × Option String :=
  match value with
  | .mref vr =>
    match lookupS (readN σ curR) k with
    | some (.mref er) =>
      match mergeMapsS fuel σ er vr with
      | (σ1, .error e) => (σ1, some e)
      | (σ1, .ok mr) =>
        (writeN σ1 curR (insertS (readN σ1 curR) k (.mref mr)), none)
    | some (.scalar d) =>
      (σ, some ("cannot merge map into non-map: existing value is " ++ goTypeName d))
    | none => (writeN σ curR (insertS (readN σ curR) k value), none)
  | .scalar _ => (writeN σ curR (insertS (readN σ curR) k value), none)

/-- Store-level navigation loop of mergeNestedValue: copy each visited
nested map into a fresh node, link the copy into the current node, and
move current to the copy; the final key applies the final-key step. -/
def mergeNVLoopS (fuel : Nat) (value : SVal) :
    SStore → Nat → List RawSeg → SStore × Option String
  | σ, _, [] => (σ, some "empty path in navigation")
  | σ, curR, [seg] =>
    match seg with
    | .str k => mergeFinalKeyS fuel σ curR k value
    | other => (σ, some ("non-string final key: " ++ segShow other))
  | σ, curR, seg :: rest =>
    match seg with
    | .str k =>
      match lookupS (readN σ curR) k with
      | some (.mref er) =>
        mergeNVLoopS fuel value
          (writeN (σ ++ [readN σ er]) curR
            (insertS (readN (σ ++ [readN σ er]) curR) k (.mref σ.length)))
          σ.length rest
      | some (.scalar d) =>
        (σ, some ("path conflict at " ++ k ++ ": expected map, got " ++ goTypeName d))
      | none =>
        mergeNVLoopS fuel value
          (writeN (σ ++ [[]]) curR
            (insertS (readN (σ ++ [[]]) curR) k (.mref σ.length)))
          σ.length rest
    | other => (σ, some ("non-string key: " ++ segShow other))

/-- Store-level mergeNestedValue: the empty path deep-merges a map value
into the root; otherwise a fresh copy of the root node is allocated and
the navigation loop runs on it, returning the copy on success. -/
def mergeNestedValueS (fuel : Nat) (σ : SStore) (rootR : Nat) (path : List RawSeg)
    (value : SVal) : SStore × Except String Nat :=
  match path with
  | [] =>
    match value with
    | .mref vr => mergeMapsS fuel σ rootR vr
    | .scalar d =>
      (σ, .error ("cannot set non-map value at root with empty path, got " ++ goTypeName d))
  | _ =>
    match mergeNVLoopS fuel value (σ ++ [readN σ rootR]) σ.length path with
    | (σ1, some e) => (σ1, .error e)
    | (σ1, none) => (σ1, .ok σ.length)

/-- Store-level column loop of buildNestedData. -/
def buildNestedGoS (fuel : Nat) (flat : SNode) :
    SStore → Nat → List OutColumn → SStore × Except String Nat
  | σ, rootR, [] => (σ, .ok rootR)
  | σ, rootR, col :: rest =>
    match lookupS flat col.name with
    | none => buildNestedGoS fuel flat σ rootR rest
    | some value =>
      match mergeNestedValueS fuel σ rootR (col.outputPath.getD [.str col.name]) value with
      | (σ1, .error e) => (σ1, .error ("setting column " ++ col.name ++ ": " ++ e))
      | (σ1, .ok r2) => buildNestedGoS fuel flat σ1 r2 rest

/-- Store-level buildNestedData: start from a freshly allocated empty root
node and splice every present column. -/
def buildNestedDataS (fuel : Nat) (σ : SStore) (flat : SNode) (cols : List OutColumn) :
    SStore × Except String Nat :=
  buildNestedGoS fuel flat (σ ++ [[]]) σ.length cols

/-! ### Store access lemmas -/

theorem length_writeN (σ : SStore) (r : Nat) (nd : SNode) :
    (writeN σ r nd).length = σ.length := List.length_set σ r nd

theorem readN_append_lt (σ : SStore) (nd : SNode) (i : Nat) (h : i < σ.length) :
    readN (σ ++ [nd]) i = readN σ i :=
  List.getD_append σ [nd] [] i h

theorem readN_append_self (σ : SStore) (nd : SNode) :
    readN (σ ++ [nd]) σ.length = nd := by
  unfold readN
  simp [List.getD_eq_getElem?_getD, List.getElem?_append_right (Nat.le_refl σ.length)]

theorem readN_writeN_ne (σ : SStore) (r i : Nat) (nd : SNode) (h : i ≠ r) :
    readN (writeN σ r nd) i = readN σ i := by
  unfold readN writeN
  simp [List.getD_eq_getElem?_getD, List.getElem?_set_ne (fun he => h he.symm)]

theorem readN_writeN_self (σ : SStore) (r : Nat) (nd : SNode) (h : r < σ.length) :
    readN (writeN σ r nd) r = nd := by
  unfold readN writeN
  simp [List.getD_eq_getElem?_getD, List.getElem?_set_self', List.getElem?_eq_getElem h]

/-- Store extension: nothing that existed has been modified. -/
def FrameExt (σ σ2 : SStore) : Prop :=
  σ.length ≤ σ2.length ∧ ∀ i < σ.length, readN σ2 i = readN σ i

/-- Store extension except one designated node (the fresh result node a
caller allocated and is allowed to fill in). -/
def FrameExtExc (σ σ2 : SStore) (t : Nat) : Prop :=
  σ.length ≤ σ2.length ∧ ∀ i < σ.length, i ≠ t → readN σ2 i = readN σ i

theorem FrameExt_refl (σ : SStore) : FrameExt σ σ := ⟨Nat.le_refl _, fun _ _ => rfl⟩

theorem FrameExt_trans {σ1 σ2 σ3 : SStore} (h1 : FrameExt σ1 σ2) (h2 : FrameExt σ2 σ3) :
    FrameExt σ1 σ3 := by
  obtain ⟨l1, p1⟩ := h1
  obtain ⟨l2, p2⟩ := h2
  exact ⟨Nat.le_trans l1 l2,
    fun i hi => (p2 i (Nat.lt_of_lt_of_le hi l1)).trans (p1 i hi)⟩

theorem FrameExt.toExc {σ σ2 : SStore} (h : FrameExt σ σ2) (t : Nat) :
    FrameExtExc σ σ2 t :=
  ⟨h.1, fun i hi _ => h.2 i hi⟩

theorem FrameExtExc_refl (σ : SStore) (t : Nat) : FrameExtExc σ σ t :=
  ⟨Nat.le_refl _, fun _ _ _ => rfl⟩

theorem FrameExtExc_trans {σ1 σ2 σ3 : SStore} {t : Nat}
    (h1 : FrameExtExc σ1 σ2 t) (h2 : FrameExtExc σ2 σ3 t) : FrameExtExc σ1 σ3 t := by
  obtain ⟨l1, p1⟩ := h1
  obtain ⟨l2, p2⟩ := h2
  exact ⟨Nat.le_trans l1 l2,
    fun i hi hit => (p2 i (Nat.lt_of_lt_of_le hi l1) hit).trans (p1 i hi hit)⟩

theorem frameExt_append (σ : SStore) (nd : SNode) : FrameExt σ (σ ++ [nd]) := by
  refine ⟨by simp, ?_⟩
  intro i hi
  exact readN_append_lt σ nd i hi

theorem frameExtExc_writeN (σ : SStore) (t : Nat) (nd : SNode) :
    FrameExtExc σ (writeN σ t nd) t := by
  refine ⟨by rw [length_writeN], ?_⟩
  intro i _ hit
  exact readN_writeN_ne σ t i nd hit

/-! ### Frame theorems: the merge never writes a pre-existing node -/

theorem mergeLoopS_frame (f : SStore → Nat → Nat → SStore × Except String Nat)
    (hf : ∀ σ a b, FrameExt σ (f σ a b).1) (resR : Nat) :
    ∀ bindings σ, FrameExtExc σ (mergeLoopS f resR σ bindings).1 resR := by
  intro bindings
  induction bindings with
  | nil => intro σ; exact FrameExtExc_refl σ resR
  | cons p rest ih =>
    intro σ
    obtain ⟨k, sv⟩ := p
    simp only [mergeLoopS]
    cases hl : lookupS (readN σ resR) k with
    | none =>
      exact FrameExtExc_trans (frameExtExc_writeN σ resR _)
        (ih (writeN σ resR (insertS (readN σ resR) k sv)))
    | some dv =>
      cases dv with
      | scalar d => cases sv <;> exact FrameExtExc_refl σ resR
      | mref rd =>
        cases sv with
        | scalar d2 => exact FrameExtExc_refl σ resR
        | mref rs =>
          rcases hrun : f σ rd rs with ⟨σ2, res⟩
          have h1 : FrameExtExc σ σ2 resR := by
            have := hf σ rd rs
            rw [hrun] at this
            exact this.toExc resR
          cases res with
          | error e => simp only [hrun]; exact h1
          | ok mr =>
            simp only [hrun]
            exact FrameExtExc_trans h1 (FrameExtExc_trans
              (frameExtExc_writeN σ2 resR _)
              (ih (writeN σ2 resR (insertS (readN σ2 resR) k (.mref mr)))))

theorem mergeMapsS_frame :
    ∀ fuel σ destR srcR, FrameExt σ (mergeMapsS fuel σ destR srcR).1 := by
  intro fuel
  induction fuel with
  | zero => intro σ _ _; exact FrameExt_refl σ
  | succ f ih =>
    intro σ destR srcR
    simp only [mergeMapsS]
    have hloop := mergeLoopS_frame (mergeMapsS f) (fun σ2 a b => ih σ2 a b) σ.length
      (readN σ srcR) (σ ++ [readN σ destR])
    constructor
    · have h1 := hloop.1
      simp only [List.length_append, List.length_singleton] at h1
      omega
    · intro i hi
      rw [hloop.2 i (by simp only [List.length_append, List.length_singleton]; omega)
        (by omega)]
      exact readN_append_lt σ _ i hi

theorem mergeFinalKeyS_frame (fuel : Nat) (σ : SStore) (curR : Nat) (k : String)
    (value : SVal) : FrameExtExc σ (mergeFinalKeyS fuel σ curR k value).1 curR := by
  unfold mergeFinalKeyS
  cases value with
  | scalar d => exact frameExtExc_writeN σ curR _
  | mref vr =>
    cases hl : lookupS (readN σ curR) k with
    | none => exact frameExtExc_writeN σ curR _
    | some dv =>
      cases dv with
      | scalar d => exact FrameExtExc_refl σ curR
      | mref er =>
        rcases hrun : mergeMapsS fuel σ er vr with ⟨σ1, res⟩
        have h1 : FrameExtExc σ σ1 curR := by
          have := mergeMapsS_frame fuel σ er vr
          rw [hrun] at this
          exact this.toExc curR
        cases res with
        | error e => simp only [hrun]; exact h1
        | ok mr =>
          simp only [hrun]
          exact FrameExtExc_trans h1 (frameExtExc_writeN σ1 curR _)

theorem mergeNVLoopS_frame :
    ∀ path fuel value σ curR, FrameExtExc σ (mergeNVLoopS fuel value σ curR path).1 curR := by
  intro path
  induction path with
  | nil => intro fuel value σ curR; exact FrameExtExc_refl σ curR
  | cons seg rest ih =>
    intro fuel value σ curR
    cases rest with
    | nil =>
      cases seg with
      | str k => exact mergeFinalKeyS_frame fuel σ curR k value
      | int i => exact FrameExtExc_refl σ curR
      | bad tag => exact FrameExtExc_refl σ curR
    | cons s2 r2 =>
      cases seg with
      | int i => exact FrameExtExc_refl σ curR
      | bad tag => exact FrameExtExc_refl σ curR
      | str k =>
        simp only [mergeNVLoopS]
        have hstep : ∀ nd : SNode, FrameExtExc σ
            ((mergeNVLoopS fuel value
              (writeN (σ ++ [nd]) curR
                (insertS (readN (σ ++ [nd]) curR) k (.mref σ.length)))
              σ.length (s2 :: r2)).1) curR := by
          intro nd
          have hrec := ih fuel value
            (writeN (σ ++ [nd]) curR
              (insertS (readN (σ ++ [nd]) curR) k (.mref σ.length)))
            σ.length
          constructor
          · have h1 := hrec.1
            simp only [length_writeN, List.length_append, List.length_singleton] at h1
            omega
          · intro i hi hit
            rw [hrec.2 i
              (by simp only [length_writeN, List.length_append, List.length_singleton]; omega)
              (by omega)]
            rw [readN_writeN_ne _ curR i _ hit]
            exact readN_append_lt σ nd i hi
        cases hl : lookupS (readN σ curR) k with
        | none => exact hstep []
        | some dv =>
          cases dv with
          | scalar d => exact FrameExtExc_refl σ curR
          | mref er => exact hstep (readN σ er)

theorem mergeNestedValueS_frame (fuel : Nat) (σ : SStore) (rootR : Nat)
    (path : List RawSeg) (value : SVal) :
    FrameExt σ (mergeNestedValueS fuel σ rootR path value).1 := by
  unfold mergeNestedValueS
  cases path with
  | nil =>
    cases value with
    | mref vr => exact mergeMapsS_frame fuel σ rootR vr
    | scalar d => exact FrameExt_refl σ
  | cons seg rest =>
    have hloop := mergeNVLoopS_frame (seg :: rest) fuel value (σ ++ [readN σ rootR]) σ.length
    rcases hrun : mergeNVLoopS fuel value (σ ++ [readN σ rootR]) σ.length (seg :: rest)
      with ⟨σ1, res⟩
    rw [hrun] at hloop
    have hfr : FrameExt σ σ1 := by
      constructor
      · have h1 := hloop.1
        simp only [List.length_append, List.length_singleton] at h1
        omega
      · intro i hi
        rw [hloop.2 i (by simp only [List.length_append, List.length_singleton]; omega)
          (by omega)]
        exact readN_append_lt σ _ i hi
    cases res with
    | some e => simpa [hrun] using hfr
    | none => simpa [hrun] using hfr

theorem buildNestedGoS_frame :
    ∀ cols fuel flat σ rootR, FrameExt σ (buildNestedGoS fuel flat σ rootR cols).1 := by
  intro cols
  induction cols with
  | nil => intro fuel flat σ rootR; exact FrameExt_refl σ
  | cons col rest ih =>
    intro fuel flat σ rootR
    simp only [buildNestedGoS]
    cases hl : lookupS flat col.name with
    | none => exact ih fuel flat σ rootR
    | some value =>
      rcases hrun : mergeNestedValueS fuel σ rootR (col.outputPath.getD [.str col.name]) value
        with ⟨σ1, res⟩
      have h1 : FrameExt σ σ1 := by
        have := mergeNestedValueS_frame fuel σ rootR (col.outputPath.getD [.str col.name]) value
        rw [hrun] at this
        exact this
      cases res with
      | error e => simp only [hrun]; exact h1
      | ok r2 => simp only [hrun]; exact FrameExt_trans h1 (ih fuel flat σ1 r2)

theorem buildNestedDataS_frame (fuel : Nat) (σ : SStore) (flat : SNode)
    (cols : List OutColumn) : FrameExt σ (buildNestedDataS fuel σ flat cols).1 := by
  unfold buildNestedDataS
  exact FrameExt_trans (frameExt_append σ []) (buildNestedGoS_frame cols fuel flat _ _)

/-! ### Store simulation under reallocation

Running the builder a second time starts from the first run's final store,
which is the original store with the first run's allocations appended.
The second run performs the same steps with every fresh allocation shifted
past that suffix.  The shift translation below makes this precise; the
simulation theorems then show each builder function commutes with the
translation, which yields the run-twice equality of outputs. -/

/-- Translate a reference: old references (below the cut n0) are kept,
fresh ones are moved up by j. -/
def shiftR (n0 j r : Nat) : Nat := if r < n0 then r else r + j

/-- Translate a slot value. -/
def shiftV (n0 j : Nat) : SVal → SVal
  | .scalar d => .scalar d
  | .mref r => .mref (shiftR n0 j r)

/-- Translate a node. -/
def shiftN (n0 j : Nat) (nd : SNode) : SNode :=
  nd.map fun p => (p.1, shiftV n0 j p.2)

/-- Translate a store suffix of fresh nodes. -/
def shiftK (n0 j : Nat) (K : SStore) : SStore := K.map (shiftN n0 j)

/-- Every reference stored anywhere in the store is below N. -/
def ClosedBelow (σ : SStore) (N : Nat) : Prop :=
  ∀ i, ∀ p ∈ readN σ i, ∀ r, p.2 = .mref r → r < N

/-- Translate a merge result. -/
def shiftE (n0 j : Nat) : Except String Nat → Except String Nat
  | .error e => .error e
  | .ok r => .ok (shiftR n0 j r)

theorem shiftV_closed (n0 j : Nat) (v : SVal) (h : ∀ r, v = .mref r → r < n0) :
    shiftV n0 j v = v := by
  cases v with
  | scalar d => rfl
  | mref r => simp [shiftV, shiftR, h r rfl]

theorem shiftN_closed (n0 j : Nat) (nd : SNode) (h : ∀ p ∈ nd, ∀ r, p.2 = .mref r → r < n0) :
    shiftN n0 j nd = nd := by
  induction nd with
  | nil => rfl
  | cons p rest ih =>
    have h1 := shiftV_closed n0 j p.2 (h p (List.mem_cons_self p rest))
    have h2 := ih fun q hq => h q (List.mem_cons_of_mem p hq)
    simp only [shiftN, List.map_cons] at h2 ⊢
    rw [h1, h2, Prod.mk.eta]

theorem svTypeName_shiftV (n0 j : Nat) (v : SVal) : svTypeName (shiftV n0 j v) = svTypeName v := by
  cases v <;> rfl

theorem lookupS_shiftN (n0 j : Nat) (nd : SNode) (k : String) :
    lookupS (shiftN n0 j nd) k = (lookupS nd k).map (shiftV n0 j) := by
  induction nd with
  | nil => rfl
  | cons p rest ih =>
    obtain ⟨k2, v⟩ := p
    by_cases h : k2 == k
    · simp [shiftN, lookupS, h]
    · simpa [shiftN, lookupS, h] using ih

theorem insertS_shiftN (n0 j : Nat) (nd : SNode) (k : String) (v : SVal) :
    insertS (shiftN n0 j nd) k (shiftV n0 j v) = shiftN n0 j (insertS nd k v) := by
  induction nd with
  | nil => rfl
  | cons p rest ih =>
    obtain ⟨k2, w⟩ := p
    by_cases h : k2 == k
    · simp [shiftN, insertS, h]
    · simpa [shiftN, insertS, h] using ih

theorem readN_shiftK (n0 j : Nat) (K : SStore) (i : Nat) :
    readN (shiftK n0 j K) i = shiftN n0 j (readN K i) := by
  unfold readN shiftK
  by_cases h : i < K.length
  · rw [List.getD_eq_getElem?_getD, List.getElem?_map, List.getD_eq_getElem?_getD,
      List.getElem?_eq_getElem h]
    rfl
  · rw [List.getD_eq_getElem?_getD, List.getD_eq_getElem?_getD,
      List.getElem?_eq_none (by simpa using h),
      List.getElem?_eq_none (by omega)]
    rfl

theorem readN_append_right (σ0 K : SStore) (r : Nat) (h : σ0.length ≤ r) :
    readN (σ0 ++ K) r = readN K (r - σ0.length) := by
  unfold readN
  rw [List.getD_eq_getElem?_getD, List.getD_eq_getElem?_getD,
    List.getElem?_append_right h]

theorem readN_append_left (σ0 rest : SStore) (r : Nat) (h : r < σ0.length) :
    readN (σ0 ++ rest) r = readN σ0 r := by
  unfold readN
  rw [List.getD_eq_getElem?_getD, List.getD_eq_getElem?_getD, List.getElem?_append,
    if_pos h]

/-- Read in the shifted store corresponds to a shifted read. -/
theorem readN_sim (σ0 J K : SStore) (hcl0 : ClosedBelow σ0 σ0.length) (r : Nat) :
    readN (σ0 ++ J ++ shiftK σ0.length J.length K) (shiftR σ0.length J.length r)
      = shiftN σ0.length J.length (readN (σ0 ++ K) r) := by
  set n0 := σ0.length
  set j := J.length
  by_cases h1 : r < n0
  · have hr : shiftR n0 j r = r := by simp [shiftR, h1]
    rw [hr, List.append_assoc, readN_append_left σ0 _ r h1, readN_append_left σ0 K r h1]
    exact (shiftN_closed n0 j (readN σ0 r) (fun p hp => hcl0 r p hp)).symm
  · have hr : shiftR n0 j r = r + j := by simp [shiftR, h1]
    rw [hr]
    have h2 : (σ0 ++ J).length ≤ r + j := by
      simp only [List.length_append]; omega
    rw [List.append_assoc σ0 J _, ← List.append_assoc σ0 J _,
      readN_append_right (σ0 ++ J) _ (r + j) h2]
    have h3 : r + j - (σ0 ++ J).length = r - n0 := by
      simp only [List.length_append]; omega
    rw [h3, readN_shiftK, readN_append_right σ0 K r (by omega)]

theorem writeN_append_right (σ0 K : SStore) (r : Nat) (nd : SNode) (h : σ0.length ≤ r) :
    writeN (σ0 ++ K) r nd = σ0 ++ writeN K (r - σ0.length) nd := by
  unfold writeN
  rw [List.set_append_right _ _ h]

theorem shiftK_set (n0 j : Nat) (K : SStore) (i : Nat) (nd : SNode) :
    (shiftK n0 j K).set i (shiftN n0 j nd) = shiftK n0 j (K.set i nd) := by
  unfold shiftK
  rw [List.set_map]

/-- Write in the shifted store corresponds to a shifted write. -/
theorem writeN_sim (σ0 J K : SStore) (r : Nat) (nd : SNode) (h : σ0.length ≤ r) :
    writeN (σ0 ++ J ++ shiftK σ0.length J.length K) (shiftR σ0.length J.length r)
        (shiftN σ0.length J.length nd)
      = σ0 ++ J ++ shiftK σ0.length J.length (writeN K (r - σ0.length) nd) := by
  set n0 := σ0.length
  set j := J.length
  have hr : shiftR n0 j r = r + j := by simp [shiftR]; omega
  rw [hr]
  have h2 : (σ0 ++ J).length ≤ r + j := by simp only [List.length_append]; omega
  rw [List.append_assoc σ0 J _, ← List.append_assoc σ0 J _,
    writeN_append_right (σ0 ++ J) _ (r + j) _ h2]
  have h3 : r + j - (σ0 ++ J).length = r - n0 := by simp only [List.length_append]; omega
  rw [h3]
  show σ0 ++ J ++ writeN (shiftK n0 j K) (r - n0) (shiftN n0 j nd) = _
  unfold writeN
  rw [shiftK_set n0 j K (r - n0) nd]

/-- A store that extends σ0 without touching it splits as σ0 followed by
its fresh suffix. -/
theorem storeSplit (σ0 σ2 : SStore) (hlen : σ0.length ≤ σ2.length)
    (h : ∀ i < σ0.length, readN σ2 i = readN σ0 i) :
    σ2 = σ0 ++ σ2.drop σ0.length := by
  apply List.ext_getElem
  · simp; omega
  · intro i h1 h2
    by_cases hi : i < σ0.length
    · have e1 : readN σ2 i = σ2[i] := by
        unfold readN
        rw [List.getD_eq_getElem?_getD, List.getElem?_eq_getElem h1]
        rfl
      have e2 : readN σ0 i = σ0[i] := by
        unfold readN
        rw [List.getD_eq_getElem?_getD, List.getElem?_eq_getElem hi]
        rfl
      rw [List.getElem_append_left]
      · rw [← e2, ← h i hi, e1]
    · rw [List.getElem_append_right (by omega)]
      rw [List.getElem_drop]
      congr 1
      omega

theorem closedBelow_mono {σ : SStore} {N N2 : Nat} (h : ClosedBelow σ N) (hle : N ≤ N2) :
    ClosedBelow σ N2 := by
  intro i p hp r hr
  exact Nat.lt_of_lt_of_le (h i p hp r hr) hle

theorem closedBelow_writeN {σ : SStore} {N : Nat} (h : ClosedBelow σ N) (t : Nat)
    {nd : SNode} (hnd : ∀ p ∈ nd, ∀ r, p.2 = .mref r → r < N) :
    ClosedBelow (writeN σ t nd) N := by
  intro i p hp r hr
  by_cases hit : i = t
  · subst hit
    by_cases hlt : i < σ.length
    · rw [readN_writeN_self σ i nd hlt] at hp
      exact hnd p hp r hr
    · have : writeN σ i nd = σ := by
        unfold writeN
        exact List.set_eq_of_length_le (by omega)
      rw [this] at hp
      exact h i p hp r hr
  · rw [readN_writeN_ne σ t i nd hit] at hp
    exact h i p hp r hr

theorem closedBelow_append {σ : SStore} {N : Nat} (h : ClosedBelow σ N) {nd : SNode}
    (hnd : ∀ p ∈ nd, ∀ r, p.2 = .mref r → r < N) :
    ClosedBelow (σ ++ [nd]) N := by
  intro i p hp r hr
  by_cases hi : i < σ.length
  · rw [readN_append_lt σ nd i hi] at hp
    exact h i p hp r hr
  · by_cases hi2 : i = σ.length
    · subst hi2
      rw [readN_append_self σ nd] at hp
      exact hnd p hp r hr
    · have : readN (σ ++ [nd]) i = [] := by
        unfold readN
        rw [List.getD_eq_getElem?_getD, List.getElem?_eq_none (by simp; omega)]
        rfl
      rw [this] at hp
      simp at hp

theorem closedBelow_node {σ : SStore} {N : Nat} (h : ClosedBelow σ N) (i : Nat) :
    ∀ p ∈ readN σ i, ∀ r, p.2 = .mref r → r < N := h i

theorem shiftR_ge (n0 j r : Nat) (h : n0 ≤ r) : shiftR n0 j r = r + j := by
  simp [shiftR]; omega

theorem shiftN_cons (n0 j : Nat) (k : String) (v : SVal) (rest : SNode) :
    shiftN n0 j ((k, v) :: rest) = (k, shiftV n0 j v) :: shiftN n0 j rest := rfl

theorem length_simB (σ0 J K : SStore) :
    (σ0 ++ J ++ shiftK σ0.length J.length K).length
      = σ0.length + J.length + K.length := by
  simp [shiftK]; omega

theorem appendN_sim (σ0 J K : SStore) (nd : SNode) :
    σ0 ++ J ++ shiftK σ0.length J.length K ++ [shiftN σ0.length J.length nd]
      = σ0 ++ J ++ shiftK σ0.length J.length (K ++ [nd]) := by
  simp [shiftK]

/-- Whatever insertS produced was in the node already or is the inserted
value. -/
theorem insertS_mem (nd : SNode) (k : String) (v : SVal) :
    ∀ p ∈ insertS nd k v, p.2 = v ∨ p ∈ nd := by
  induction nd with
  | nil =>
    intro p hp
    simp only [insertS, List.mem_singleton] at hp
    subst hp
    exact Or.inl rfl
  | cons q rest ih =>
    obtain ⟨k2, w⟩ := q
    intro p hp
    by_cases h : k2 == k
    · simp only [insertS, h, if_pos] at hp
      rcases List.mem_cons.mp hp with h1 | h1
      · subst h1; exact Or.inl rfl
      · exact Or.inr (List.mem_cons_of_mem _ h1)
    · simp only [insertS, h, if_neg, Bool.false_eq_true, not_false_iff] at hp
      rcases List.mem_cons.mp hp with h1 | h1
      · subst h1; exact Or.inr (List.mem_cons_self _ _)
      · rcases ih p h1 with h2 | h2
        · exact Or.inl h2
        · exact Or.inr (List.mem_cons_of_mem _ h2)

/-! ### Extraction: the pure data tree denoted by a store value -/

/-- Extract every binding of a node through the given value extractor. -/
def extractEntries (f : SVal → Option DataType) : SNode → Option (List (String × DataType))
  | [] => some []
  | (k, v) :: rest =>
    match f v, extractEntries f rest with
    | some d, some ds => some ((k, d) :: ds)
    | _, _ => none

/-- Extract the pure data tree of a slot value, reading map references
through the store down to the given depth. -/
def extractS : Nat → SStore → SVal → Option DataType
  | _, _, .scalar d => some d
  | 0, _, .mref _ => none
  | fuel + 1, σ, .mref r => (extractEntries (extractS fuel σ) (readN σ r)).map .M

theorem extractEntries_congr (f1 f2 : SVal → Option DataType) (nd : SNode)
    (h : ∀ p ∈ nd, f1 p.2 = f2 p.2) : extractEntries f1 nd = extractEntries f2 nd := by
  induction nd with
  | nil => rfl
  | cons p rest ih =>
    obtain ⟨k, v⟩ := p
    have h1 := h (k, v) (List.mem_cons_self _ _)
    simp only [extractEntries]
    rw [show f1 (k, v).2 = f2 (k, v).2 from h1, ih fun q hq => h q (List.mem_cons_of_mem _ hq)]

theorem extractEntries_shiftN (f : SVal → Option DataType) (n0 j : Nat) (nd : SNode) :
    extractEntries f (shiftN n0 j nd)
      = extractEntries (fun v => f (shiftV n0 j v)) nd := by
  induction nd with
  | nil => rfl
  | cons p rest ih =>
    obtain ⟨k, v⟩ := p
    rw [shiftN_cons]
    simp only [extractEntries]
    rw [ih]

/-- Extraction commutes with the shift translation. -/
theorem extractS_sim (σ0 J : SStore) (hcl0 : ClosedBelow σ0 σ0.length) :
    ∀ fuel K v,
      extractS fuel (σ0 ++ J ++ shiftK σ0.length J.length K)
          (shiftV σ0.length J.length v)
        = extractS fuel (σ0 ++ K) v := by
  intro fuel
  induction fuel with
  | zero => intro K v; cases v <;> rfl
  | succ f ih =>
    intro K v
    cases v with
    | scalar d => rfl
    | mref r =>
      have hs : shiftV σ0.length J.length (.mref r) = .mref (shiftR σ0.length J.length r) := rfl
      rw [hs]
      simp only [extractS]
      rw [readN_sim σ0 J K hcl0 r, extractEntries_shiftN,
        extractEntries_congr _ _ _ fun p _ => ih K p.2]

/-- The simulation property of a merge function: it commutes with the
shift translation, extends the base store, stays closed, and returns a
fresh in-range reference on success. -/
def MergeSim (σ0 J : SStore) (f : SStore → Nat → Nat → SStore × Except String Nat) : Prop :=
  ∀ K a b σA2 res,
    ClosedBelow (σ0 ++ K) (σ0.length + K.length) →
    f (σ0 ++ K) a b = (σA2, res) →
    ∃ K2, σA2 = σ0 ++ K2 ∧
      ClosedBelow (σ0 ++ K2) (σ0.length + K2.length) ∧
      K.length ≤ K2.length ∧
      (∀ r, res = .ok r → σ0.length ≤ r ∧ r < σ0.length + K2.length) ∧
      f (σ0 ++ J ++ shiftK σ0.length J.length K) (shiftR σ0.length J.length a)
          (shiftR σ0.length J.length b)
        = (σ0 ++ J ++ shiftK σ0.length J.length K2, shiftE σ0.length J.length res)

/-- The source-bindings loop commutes with the shift translation whenever
the recursive merge does. -/
theorem mergeLoopS_sim (σ0 J : SStore) (hcl0 : ClosedBelow σ0 σ0.length)
    (f : SStore → Nat → Nat → SStore × Except String Nat) (hf : MergeSim σ0 J f) :
    ∀ bindings K resR σA2 res,
      ClosedBelow (σ0 ++ K) (σ0.length + K.length) →
      (∀ p ∈ bindings, ∀ r, p.2 = .mref r → r < σ0.length + K.length) →
      σ0.length ≤ resR →
      mergeLoopS f resR (σ0 ++ K) bindings = (σA2, res) →
      ∃ K2, σA2 = σ0 ++ K2 ∧
        ClosedBelow (σ0 ++ K2) (σ0.length + K2.length) ∧
        K.length ≤ K2.length ∧
        (∀ r, res = .ok r → r = resR) ∧
        mergeLoopS f (shiftR σ0.length J.length resR)
            (σ0 ++ J ++ shiftK σ0.length J.length K)
            (shiftN σ0.length J.length bindings)
          = (σ0 ++ J ++ shiftK σ0.length J.length K2, shiftE σ0.length J.length res) := by
  intro bindings
  induction bindings with
  | nil =>
    intro K resR σA2 res hclK hbv hres hrun
    simp only [mergeLoopS] at hrun
    injection hrun with h1 h2
    subst h1
    subst h2
    refine ⟨K, rfl, hclK, Nat.le_refl _, fun r hr => by injection hr with h; exact h.symm, ?_⟩
    simp [mergeLoopS, shiftN, shiftE]
  | cons p rest ih =>
    obtain ⟨k, sv⟩ := p
    intro K resR σA2 res hclK hbv hres hrun
    have hbvh : ∀ r, sv = .mref r → r < σ0.length + K.length :=
      fun r hr => hbv (k, sv) (List.mem_cons_self _ _) r hr
    have hbvr : ∀ p ∈ rest, ∀ r, p.2 = .mref r → r < σ0.length + K.length :=
      fun p hp => hbv p (List.mem_cons_of_mem _ hp)
    simp only [mergeLoopS] at hrun
    cases hl : lookupS (readN (σ0 ++ K) resR) k with
    | none =>
      simp only [hl] at hrun
      rw [writeN_append_right σ0 K resR _ hres] at hrun
      have hclK' : ClosedBelow
          (σ0 ++ writeN K (resR - σ0.length) (insertS (readN (σ0 ++ K) resR) k sv))
          (σ0.length + (writeN K (resR - σ0.length)
            (insertS (readN (σ0 ++ K) resR) k sv)).length) := by
        rw [← writeN_append_right σ0 K resR _ hres]
        rw [length_writeN]
        apply closedBelow_writeN hclK resR
        intro p hp r hr
        rcases insertS_mem _ k sv p hp with h1 | h1
        · exact hbvh r (h1 ▸ hr)
        · exact closedBelow_node hclK resR p h1 r hr
      have hbv' : ∀ p ∈ rest, ∀ r, p.2 = .mref r →
          r < σ0.length + (writeN K (resR - σ0.length)
            (insertS (readN (σ0 ++ K) resR) k sv)).length := by
        rw [length_writeN]
        exact hbvr
      obtain ⟨K2, hA, hcl2, hle2, hok2, hB⟩ := ih _ resR σA2 res hclK' hbv' hres hrun
      have hlen : (writeN K (resR - σ0.length)
          (insertS (readN (σ0 ++ K) resR) k sv)).length = K.length :=
        length_writeN _ _ _
      refine ⟨K2, hA, hcl2, by omega, hok2, ?_⟩
      rw [shiftN_cons]
      have hlB : lookupS (readN (σ0 ++ J ++ shiftK σ0.length J.length K)
          (shiftR σ0.length J.length resR)) k = none := by
        rw [readN_sim σ0 J K hcl0 resR, lookupS_shiftN, hl]
        rfl
      simp only [mergeLoopS, hlB]
      rw [readN_sim σ0 J K hcl0 resR, insertS_shiftN, writeN_sim σ0 J K resR _ hres]
      exact hB
    | some dv =>
      simp only [hl] at hrun
      have hlB : lookupS (readN (σ0 ++ J ++ shiftK σ0.length J.length K)
          (shiftR σ0.length J.length resR)) k
            = some (shiftV σ0.length J.length dv) := by
        rw [readN_sim σ0 J K hcl0 resR, lookupS_shiftN, hl]
        rfl
      cases dv with
      | scalar d =>
        cases sv with
        | scalar d2 =>
          injection hrun with h1 h2
          subst h1
          subst h2
          refine ⟨K, rfl, hclK, Nat.le_refl _, fun r hr => Except.noConfusion hr, ?_⟩
          rw [shiftN_cons]
          simp only [mergeLoopS, hlB, shiftV, shiftE]
        | mref rs =>
          injection hrun with h1 h2
          subst h1
          subst h2
          refine ⟨K, rfl, hclK, Nat.le_refl _, fun r hr => Except.noConfusion hr, ?_⟩
          rw [shiftN_cons]
          simp only [mergeLoopS, hlB, shiftV, shiftE]
          simp [fieldConflictMsgS, svTypeName]
      | mref rd =>
        cases sv with
        | scalar d2 =>
          injection hrun with h1 h2
          subst h1
          subst h2
          refine ⟨K, rfl, hclK, Nat.le_refl _, fun r hr => Except.noConfusion hr, ?_⟩
          rw [shiftN_cons]
          simp only [mergeLoopS, hlB, shiftV, shiftE]
          simp [fieldConflictMsgS, svTypeName]
        | mref rs =>
          rcases hfr : f (σ0 ++ K) rd rs with ⟨σf, resf⟩
          simp only [hfr] at hrun
          obtain ⟨K2f, hAf, hclf, hlef, hokf, hBf⟩ := hf K rd rs σf resf hclK hfr
          subst hAf
          cases resf with
          | error e =>
            injection hrun with h1 h2
            subst h1
            subst h2
            refine ⟨K2f, rfl, hclf, hlef, fun r hr => Except.noConfusion hr, ?_⟩
            rw [shiftN_cons]
            simp only [mergeLoopS, hlB, shiftV]
            simp only [shiftE] at hBf
            simp only [hBf]
            rfl
          | ok mr =>
            have hrun2 : mergeLoopS f resR
                (writeN (σ0 ++ K2f) resR (insertS (readN (σ0 ++ K2f) resR) k (.mref mr)))
                rest = (σA2, res) := hrun
            clear hrun
            rename' hrun2 => hrun
            rw [writeN_append_right σ0 K2f resR _ hres] at hrun
            have hmr : σ0.length ≤ mr ∧ mr < σ0.length + K2f.length := hokf mr rfl
            have hclK' : ClosedBelow
                (σ0 ++ writeN K2f (resR - σ0.length)
                  (insertS (readN (σ0 ++ K2f) resR) k (.mref mr)))
                (σ0.length + (writeN K2f (resR - σ0.length)
                  (insertS (readN (σ0 ++ K2f) resR) k (.mref mr))).length) := by
              rw [← writeN_append_right σ0 K2f resR _ hres]
              rw [length_writeN]
              apply closedBelow_writeN hclf resR
              intro p hp r hr
              rcases insertS_mem _ k (SVal.mref mr) p hp with h1 | h1
              · rw [h1] at hr
                injection hr with h3
                omega
              · exact closedBelow_node hclf resR p h1 r hr
            have hbv' : ∀ p ∈ rest, ∀ r, p.2 = .mref r →
                r < σ0.length + (writeN K2f (resR - σ0.length)
                  (insertS (readN (σ0 ++ K2f) resR) k (.mref mr))).length := by
              rw [length_writeN]
              intro p hp r hr
              have := hbvr p hp r hr
              omega
            obtain ⟨K2, hA, hcl2, hle2, hok2, hB⟩ := ih _ resR σA2 res hclK' hbv' hres hrun
            have hlen : (writeN K2f (resR - σ0.length)
                (insertS (readN (σ0 ++ K2f) resR) k (.mref mr))).length = K2f.length :=
              length_writeN _ _ _
            refine ⟨K2, hA, hcl2, by omega, hok2, ?_⟩
            rw [shiftN_cons]
            simp only [mergeLoopS, hlB, shiftV]
            simp only [shiftE] at hBf
            simp only [hBf]
            have hsv : SVal.mref (shiftR σ0.length J.length mr)
                = shiftV σ0.length J.length (.mref mr) := rfl
            rw [readN_sim σ0 J K2f hcl0 resR, hsv, insertS_shiftN,
              writeN_sim σ0 J K2f resR _ hres]
            exact hB

/-- Store-level mergeMaps commutes with the shift translation. -/
theorem mergeMapsS_sim (σ0 J : SStore) (hcl0 : ClosedBelow σ0 σ0.length) :
    ∀ fuel, MergeSim σ0 J (mergeMapsS fuel) := by
  intro fuel
  induction fuel with
  | zero =>
    intro K a b σA2 res hclK hrun
    simp only [mergeMapsS] at hrun
    injection hrun with h1 h2
    subst h1
    subst h2
    refine ⟨K, rfl, hclK, Nat.le_refl _, fun r hr => Except.noConfusion hr, ?_⟩
    simp [mergeMapsS, shiftE]
  | succ fl ih =>
    intro K a b σA2 res hclK hrun
    simp only [mergeMapsS] at hrun
    rw [List.append_assoc, List.length_append] at hrun
    have hndcl : ∀ p ∈ readN (σ0 ++ K) a, ∀ r, p.2 = .mref r →
        r < σ0.length + K.length := closedBelow_node hclK a
    have hclK' : ClosedBelow (σ0 ++ (K ++ [readN (σ0 ++ K) a]))
        (σ0.length + (K ++ [readN (σ0 ++ K) a]).length) := by
      rw [← List.append_assoc]
      simp only [List.length_append, List.length_singleton]
      exact closedBelow_mono (closedBelow_append hclK hndcl) (by omega)
    have hbv' : ∀ p ∈ readN (σ0 ++ K) b, ∀ r, p.2 = .mref r →
        r < σ0.length + (K ++ [readN (σ0 ++ K) a]).length := by
      intro p hp r hr
      have := closedBelow_node hclK b p hp r hr
      simp only [List.length_append, List.length_singleton]
      omega
    obtain ⟨K2, hA, hcl2, hle2, hok2, hB⟩ :=
      mergeLoopS_sim σ0 J hcl0 (mergeMapsS fl) ih (readN (σ0 ++ K) b)
        (K ++ [readN (σ0 ++ K) a]) (σ0.length + K.length) σA2 res hclK' hbv'
        (by omega) hrun
    have hlen2 : K.length + 1 ≤ K2.length := by
      have := hle2
      simp only [List.length_append, List.length_singleton] at this
      omega
    refine ⟨K2, hA, hcl2, by omega, ?_, ?_⟩
    · intro r hr
      have h3 := hok2 r hr
      omega
    · simp only [mergeMapsS]
      rw [readN_sim σ0 J K hcl0 a, readN_sim σ0 J K hcl0 b, appendN_sim, length_simB]
      have harr : σ0.length + J.length + K.length
          = shiftR σ0.length J.length (σ0.length + K.length) := by
        rw [shiftR_ge _ _ _ (by omega)]
        omega
      rw [harr]
      exact hB

/-- The final-key step commutes with the shift translation. -/
theorem mergeFinalKeyS_sim (σ0 J : SStore) (hcl0 : ClosedBelow σ0 σ0.length)
    (fuel : Nat) (K : SStore) (curR : Nat) (k : String) (value : SVal) (σA2 : SStore)
    (res : Option String)
    (hclK : ClosedBelow (σ0 ++ K) (σ0.length + K.length))
    (hval : ∀ r, value = .mref r → r < σ0.length + K.length)
    (hcur : σ0.length ≤ curR)
    (hrun : mergeFinalKeyS fuel (σ0 ++ K) curR k value = (σA2, res)) :
    ∃ K2, σA2 = σ0 ++ K2 ∧
      ClosedBelow (σ0 ++ K2) (σ0.length + K2.length) ∧
      K.length ≤ K2.length ∧
      mergeFinalKeyS fuel (σ0 ++ J ++ shiftK σ0.length J.length K)
          (shiftR σ0.length J.length curR) k (shiftV σ0.length J.length value)
        = (σ0 ++ J ++ shiftK σ0.length J.length K2, res) := by
  have hwr : ∀ v : SVal, (∀ r, v = .mref r → r < σ0.length + K.length) →
      ClosedBelow (σ0 ++ writeN K (curR - σ0.length)
          (insertS (readN (σ0 ++ K) curR) k v))
        (σ0.length + (writeN K (curR - σ0.length)
          (insertS (readN (σ0 ++ K) curR) k v)).length) := by
    intro v hv
    rw [← writeN_append_right σ0 K curR _ hcur, length_writeN]
    apply closedBelow_writeN hclK curR
    intro p hp r hr
    rcases insertS_mem _ k v p hp with h1 | h1
    · exact hv r (h1 ▸ hr)
    · exact closedBelow_node hclK curR p h1 r hr
  cases value with
  | scalar d =>
    simp only [mergeFinalKeyS] at hrun
    rw [writeN_append_right σ0 K curR _ hcur] at hrun
    injection hrun with h1 h2
    subst h1
    subst h2
    refine ⟨writeN K (curR - σ0.length) (insertS (readN (σ0 ++ K) curR) k (.scalar d)),
      rfl, hwr _ (fun r hr => SVal.noConfusion hr), by rw [length_writeN], ?_⟩
    simp only [mergeFinalKeyS, shiftV]
    rw [readN_sim σ0 J K hcl0 curR,
      show SVal.scalar d = shiftV σ0.length J.length (.scalar d) from rfl,
      insertS_shiftN, writeN_sim σ0 J K curR _ hcur]
    rfl
  | mref vr =>
    simp only [mergeFinalKeyS] at hrun
    have hlB : lookupS (readN (σ0 ++ J ++ shiftK σ0.length J.length K)
        (shiftR σ0.length J.length curR)) k
          = (lookupS (readN (σ0 ++ K) curR) k).map (shiftV σ0.length J.length) := by
      rw [readN_sim σ0 J K hcl0 curR, lookupS_shiftN]
    cases hlk : lookupS (readN (σ0 ++ K) curR) k with
    | none =>
      simp only [hlk] at hrun
      rw [writeN_append_right σ0 K curR _ hcur] at hrun
      injection hrun with h1 h2
      subst h1
      subst h2
      refine ⟨writeN K (curR - σ0.length)
        (insertS (readN (σ0 ++ K) curR) k (.mref vr)),
        rfl, hwr _ hval, by rw [length_writeN], ?_⟩
      rw [hlk] at hlB
      simp only [mergeFinalKeyS, shiftV, hlB, Option.map_none']
      rw [readN_sim σ0 J K hcl0 curR,
        show SVal.mref (shiftR σ0.length J.length vr)
          = shiftV σ0.length J.length (.mref vr) from rfl,
        insertS_shiftN, writeN_sim σ0 J K curR _ hcur]
    | some dv =>
      rw [hlk] at hlB
      cases dv with
      | scalar d =>
        simp only [hlk] at hrun
        injection hrun with h1 h2
        subst h1
        subst h2
        refine ⟨K, rfl, hclK, Nat.le_refl _, ?_⟩
        simp only [mergeFinalKeyS, shiftV, hlB, Option.map_some']
      | mref er =>
        simp only [hlk] at hrun
        rcases hfr : mergeMapsS fuel (σ0 ++ K) er vr with ⟨σf, resf⟩
        simp only [hfr] at hrun
        obtain ⟨K2f, hAf, hclf, hlef, hokf, hBf⟩ :=
          mergeMapsS_sim σ0 J hcl0 fuel K er vr σf resf hclK hfr
        subst hAf
        cases resf with
        | error e =>
          have hrun2 : ((σ0 ++ K2f : SStore), (some e : Option String)) = (σA2, res) := hrun
          injection hrun2 with h1 h2
          subst h1
          subst h2
          refine ⟨K2f, rfl, hclf, hlef, ?_⟩
          simp only [shiftE] at hBf
          simp only [mergeFinalKeyS, shiftV, hlB, Option.map_some', hBf]
        | ok mr =>
          have hrun2 : (writeN (σ0 ++ K2f) curR
              (insertS (readN (σ0 ++ K2f) curR) k (.mref mr)), (none : Option String))
                = (σA2, res) := hrun
          rw [writeN_append_right σ0 K2f curR _ hcur] at hrun2
          injection hrun2 with h1 h2
          subst h1
          subst h2
          have hmr := hokf mr rfl
          have hcl' : ClosedBelow
              (σ0 ++ writeN K2f (curR - σ0.length)
                (insertS (readN (σ0 ++ K2f) curR) k (.mref mr)))
              (σ0.length + (writeN K2f (curR - σ0.length)
                (insertS (readN (σ0 ++ K2f) curR) k (.mref mr))).length) := by
            rw [← writeN_append_right σ0 K2f curR _ hcur, length_writeN]
            apply closedBelow_writeN hclf curR
            intro p hp r hr
            rcases insertS_mem _ k (SVal.mref mr) p hp with h1 | h1
            · rw [h1] at hr
              injection hr with h3
              omega
            · exact closedBelow_node hclf curR p h1 r hr
          refine ⟨writeN K2f (curR - σ0.length)
            (insertS (readN (σ0 ++ K2f) curR) k (.mref mr)),
            rfl, hcl', by rw [length_writeN]; exact hlef, ?_⟩
          simp only [shiftE] at hBf
          simp only [mergeFinalKeyS, shiftV, hlB, Option.map_some', hBf]
          rw [readN_sim σ0 J K2f hcl0 curR,
            show SVal.mref (shiftR σ0.length J.length mr)
              = shiftV σ0.length J.length (.mref mr) from rfl,
            insertS_shiftN, writeN_sim σ0 J K2f curR _ hcur]

/-- The navigation loop commutes with the shift translation. -/
theorem mergeNVLoopS_sim (σ0 J : SStore) (hcl0 : ClosedBelow σ0 σ0.length)
    (fuel : Nat) (value : SVal) :
    ∀ path K curR σA2 res,
      ClosedBelow (σ0 ++ K) (σ0.length + K.length) →
      (∀ r, value = .mref r → r < σ0.length + K.length) →
      σ0.length ≤ curR →
      mergeNVLoopS fuel value (σ0 ++ K) curR path = (σA2, res) →
      ∃ K2, σA2 = σ0 ++ K2 ∧
        ClosedBelow (σ0 ++ K2) (σ0.length + K2.length) ∧
        K.length ≤ K2.length ∧
        mergeNVLoopS fuel (shiftV σ0.length J.length value)
            (σ0 ++ J ++ shiftK σ0.length J.length K)
            (shiftR σ0.length J.length curR) path
          = (σ0 ++ J ++ shiftK σ0.length J.length K2, res) := by
  intro path
  induction path with
  | nil =>
    intro K curR σA2 res hclK hval hcur hrun
    simp only [mergeNVLoopS] at hrun
    injection hrun with h1 h2
    subst h1
    subst h2
    exact ⟨K, rfl, hclK, Nat.le_refl _, rfl⟩
  | cons seg rest ih =>
    intro K curR σA2 res hclK hval hcur hrun
    cases rest with
    | nil =>
      cases seg with
      | str k =>
        have hrun2 : mergeFinalKeyS fuel (σ0 ++ K) curR k value = (σA2, res) := hrun
        obtain ⟨K2, hA, hcl2, hle2, hB⟩ :=
          mergeFinalKeyS_sim σ0 J hcl0 fuel K curR k value σA2 res hclK hval hcur hrun2
        exact ⟨K2, hA, hcl2, hle2, hB⟩
      | int i =>
        have hrun2 : ((σ0 ++ K : SStore),
            (some ("non-string final key: " ++ segShow (.int i)) : Option String))
              = (σA2, res) := hrun
        injection hrun2 with h1 h2
        subst h1
        subst h2
        exact ⟨K, rfl, hclK, Nat.le_refl _, rfl⟩
      | bad tag =>
        have hrun2 : ((σ0 ++ K : SStore),
            (some ("non-string final key: " ++ segShow (.bad tag)) : Option String))
              = (σA2, res) := hrun
        injection hrun2 with h1 h2
        subst h1
        subst h2
        exact ⟨K, rfl, hclK, Nat.le_refl _, rfl⟩
    | cons s2 r2 =>
      cases seg with
      | int i =>
        simp only [mergeNVLoopS] at hrun
        injection hrun with h1 h2
        subst h1
        subst h2
        exact ⟨K, rfl, hclK, Nat.le_refl _, rfl⟩
      | bad tag =>
        simp only [mergeNVLoopS] at hrun
        injection hrun with h1 h2
        subst h1
        subst h2
        exact ⟨K, rfl, hclK, Nat.le_refl _, rfl⟩
      | str k =>
        simp only [mergeNVLoopS] at hrun
        have hlkB : lookupS (readN (σ0 ++ J ++ shiftK σ0.length J.length K)
            (shiftR σ0.length J.length curR)) k
              = (lookupS (readN (σ0 ++ K) curR) k).map (shiftV σ0.length J.length) := by
          rw [readN_sim σ0 J K hcl0 curR, lookupS_shiftN]
        have hcore : ∀ nd : SNode,
            (∀ p ∈ nd, ∀ r, p.2 = .mref r → r < σ0.length + K.length) →
            mergeNVLoopS fuel value
                (writeN (σ0 ++ K ++ [nd]) curR
                  (insertS (readN (σ0 ++ K ++ [nd]) curR) k (.mref (σ0 ++ K).length)))
                (σ0 ++ K).length (s2 :: r2) = (σA2, res) →
            ∃ K2, σA2 = σ0 ++ K2 ∧
              ClosedBelow (σ0 ++ K2) (σ0.length + K2.length) ∧
              K.length ≤ K2.length ∧
              mergeNVLoopS fuel (shiftV σ0.length J.length value)
                  (writeN (σ0 ++ J ++ shiftK σ0.length J.length K
                      ++ [shiftN σ0.length J.length nd])
                    (shiftR σ0.length J.length curR)
                    (insertS (readN (σ0 ++ J ++ shiftK σ0.length J.length K
                        ++ [shiftN σ0.length J.length nd])
                      (shiftR σ0.length J.length curR)) k
                      (.mref (σ0 ++ J ++ shiftK σ0.length J.length K).length)))
                  (σ0 ++ J ++ shiftK σ0.length J.length K).length (s2 :: r2)
                = (σ0 ++ J ++ shiftK σ0.length J.length K2, res) := by
          intro nd hnd hrun2
          rw [List.append_assoc, List.length_append,
            writeN_append_right σ0 (K ++ [nd]) curR _ hcur] at hrun2
          have hclKa : ClosedBelow (σ0 ++ (K ++ [nd]))
              (σ0.length + (K ++ [nd]).length) := by
            rw [← List.append_assoc]
            simp only [List.length_append, List.length_singleton]
            exact closedBelow_mono (closedBelow_append hclK hnd) (by omega)
          have hclK' : ClosedBelow
              (σ0 ++ writeN (K ++ [nd]) (curR - σ0.length)
                (insertS (readN (σ0 ++ (K ++ [nd])) curR) k
                  (.mref (σ0.length + K.length))))
              (σ0.length + (writeN (K ++ [nd]) (curR - σ0.length)
                (insertS (readN (σ0 ++ (K ++ [nd])) curR) k
                  (.mref (σ0.length + K.length)))).length) := by
            rw [← writeN_append_right σ0 (K ++ [nd]) curR _ hcur, length_writeN]
            apply closedBelow_writeN hclKa curR
            intro p hp r hr
            rcases insertS_mem _ k (SVal.mref (σ0.length + K.length)) p hp with h1 | h1
            · rw [h1] at hr
              injection hr with h3
              simp only [List.length_append, List.length_singleton]
              omega
            · exact closedBelow_node hclKa curR p h1 r hr
          have hlenK' : (writeN (K ++ [nd]) (curR - σ0.length)
              (insertS (readN (σ0 ++ (K ++ [nd])) curR) k
                (.mref (σ0.length + K.length)))).length = K.length + 1 := by
            rw [length_writeN]
            simp
          have hval' : ∀ r, value = .mref r →
              r < σ0.length + (writeN (K ++ [nd]) (curR - σ0.length)
                (insertS (readN (σ0 ++ (K ++ [nd])) curR) k
                  (.mref (σ0.length + K.length)))).length := by
            intro r hr
            have := hval r hr
            omega
          obtain ⟨K2, hA, hcl2, hle2, hB⟩ :=
            ih _ (σ0.length + K.length) σA2 res hclK' hval' (by omega) hrun2
          refine ⟨K2, hA, hcl2, by omega, ?_⟩
          rw [appendN_sim, readN_sim σ0 J (K ++ [nd]) hcl0 curR, length_simB,
            show σ0.length + J.length + K.length
              = shiftR σ0.length J.length (σ0.length + K.length) from by
                rw [shiftR_ge _ _ _ (by omega)]; omega,
            show SVal.mref (shiftR σ0.length J.length (σ0.length + K.length))
              = shiftV σ0.length J.length (.mref (σ0.length + K.length)) from rfl,
            insertS_shiftN, writeN_sim σ0 J (K ++ [nd]) curR _ hcur]
          exact hB
        cases hlk : lookupS (readN (σ0 ++ K) curR) k with
        | none =>
          simp only [hlk] at hrun
          rw [hlk] at hlkB
          obtain ⟨K2, hA, hcl2, hle2, hB⟩ := hcore []
            (by intro p hp; simp at hp) hrun
          refine ⟨K2, hA, hcl2, hle2, ?_⟩
          simp only [mergeNVLoopS, hlkB, Option.map_none']
          exact hB
        | some dv =>
          simp only [hlk] at hrun
          rw [hlk] at hlkB
          cases dv with
          | scalar d =>
            injection hrun with h1 h2
            subst h1
            subst h2
            refine ⟨K, rfl, hclK, Nat.le_refl _, ?_⟩
            simp only [mergeNVLoopS, hlkB, Option.map_some', shiftV]
          | mref er =>
            obtain ⟨K2, hA, hcl2, hle2, hB⟩ := hcore (readN (σ0 ++ K) er)
              (closedBelow_node hclK er) hrun
            refine ⟨K2, hA, hcl2, hle2, ?_⟩
            simp only [mergeNVLoopS, hlkB, Option.map_some', shiftV]
            rw [readN_sim σ0 J K hcl0 er]
            exact hB

/-- Store-level mergeNestedValue commutes with the shift translation. -/
theorem mergeNestedValueS_sim (σ0 J : SStore) (hcl0 : ClosedBelow σ0 σ0.length)
    (fuel : Nat) (K : SStore) (rootR : Nat) (path : List RawSeg) (value : SVal)
    (σA2 : SStore) (res : Except String Nat)
    (hclK : ClosedBelow (σ0 ++ K) (σ0.length + K.length))
    (hval : ∀ r, value = .mref r → r < σ0.length + K.length)
    (hrun : mergeNestedValueS fuel (σ0 ++ K) rootR path value = (σA2, res)) :
    ∃ K2, σA2 = σ0 ++ K2 ∧
      ClosedBelow (σ0 ++ K2) (σ0.length + K2.length) ∧
      K.length ≤ K2.length ∧
      (∀ r, res = .ok r → r < σ0.length + K2.length) ∧
      mergeNestedValueS fuel (σ0 ++ J ++ shiftK σ0.length J.length K)
          (shiftR σ0.length J.length rootR) path (shiftV σ0.length J.length value)
        = (σ0 ++ J ++ shiftK σ0.length J.length K2, shiftE σ0.length J.length res) := by
  cases path with
  | nil =>
    cases value with
    | mref vr =>
      obtain ⟨K2, hA, hcl2, hle2, hok2, hB⟩ :=
        mergeMapsS_sim σ0 J hcl0 fuel K rootR vr σA2 res hclK hrun
      exact ⟨K2, hA, hcl2, hle2, fun r hr => (hok2 r hr).2, hB⟩
    | scalar d =>
      simp only [mergeNestedValueS] at hrun
      injection hrun with h1 h2
      subst h1
      subst h2
      exact ⟨K, rfl, hclK, Nat.le_refl _, fun r hr => Except.noConfusion hr, rfl⟩
  | cons seg rest =>
    simp only [mergeNestedValueS] at hrun
    rw [List.append_assoc, List.length_append] at hrun
    rcases hnv : mergeNVLoopS fuel value (σ0 ++ (K ++ [readN (σ0 ++ K) rootR]))
        (σ0.length + K.length) (seg :: rest) with ⟨σn, resn⟩
    simp only [hnv] at hrun
    have hclKa : ClosedBelow (σ0 ++ (K ++ [readN (σ0 ++ K) rootR]))
        (σ0.length + (K ++ [readN (σ0 ++ K) rootR]).length) := by
      rw [← List.append_assoc]
      simp only [List.length_append, List.length_singleton]
      exact closedBelow_mono
        (closedBelow_append hclK (closedBelow_node hclK rootR)) (by omega)
    have hval' : ∀ r, value = .mref r →
        r < σ0.length + (K ++ [readN (σ0 ++ K) rootR]).length := by
      intro r hr
      have := hval r hr
      simp only [List.length_append, List.length_singleton]
      omega
    obtain ⟨K2, hA, hcl2, hle2, hB⟩ :=
      mergeNVLoopS_sim σ0 J hcl0 fuel value (seg :: rest)
        (K ++ [readN (σ0 ++ K) rootR]) (σ0.length + K.length) σn resn
        hclKa hval' (by omega) hnv
    have hle2' : K.length + 1 ≤ K2.length := by
      have := hle2
      simp only [List.length_append, List.length_singleton] at this
      omega
    have hBstep : mergeNVLoopS fuel (shiftV σ0.length J.length value)
        ((σ0 ++ J ++ shiftK σ0.length J.length K)
          ++ [readN (σ0 ++ J ++ shiftK σ0.length J.length K)
            (shiftR σ0.length J.length rootR)])
        (σ0 ++ J ++ shiftK σ0.length J.length K).length (seg :: rest)
          = (σ0 ++ J ++ shiftK σ0.length J.length K2, resn) := by
      rw [readN_sim σ0 J K hcl0 rootR, appendN_sim, length_simB,
        show σ0.length + J.length + K.length
          = shiftR σ0.length J.length (σ0.length + K.length) from by
            rw [shiftR_ge _ _ _ (by omega)]; omega]
      exact hB
    cases resn with
    | some e =>
      injection hrun with h1 h2
      subst h1
      subst h2
      refine ⟨K2, hA, hcl2, by omega, fun r hr => Except.noConfusion hr, ?_⟩
      simp only [mergeNestedValueS, hBstep]
      rfl
    | none =>
      injection hrun with h1 h2
      subst h1
      subst h2
      refine ⟨K2, hA, hcl2, by omega, ?_, ?_⟩
      · intro r hr
        injection hr with h3
        omega
      · have hlen : (σ0 ++ J ++ shiftK σ0.length J.length K).length
            = shiftR σ0.length J.length (σ0.length + K.length) := by
          rw [length_simB, shiftR_ge _ _ _ (by omega)]
          omega
        have hBstep2 := hBstep
        rw [hlen] at hBstep2
        simp only [mergeNestedValueS, hlen, hBstep2]
        rfl

/-- A looked-up value is one of the node's values. -/
theorem lookupS_mem (nd : SNode) (k : String) (v : SVal) (h : lookupS nd k = some v) :
    ∃ p ∈ nd, p.2 = v := by
  induction nd with
  | nil => exact absurd h (by simp [lookupS])
  | cons q rest ih =>
    obtain ⟨k2, w⟩ := q
    by_cases hk : k2 == k
    · simp only [lookupS, hk, if_pos] at h
      injection h with h1
      exact ⟨(k2, w), List.mem_cons_self _ _, h1⟩
    · simp only [lookupS, hk, Bool.false_eq_true, if_neg, not_false_iff] at h
      obtain ⟨p, hp, hv⟩ := ih h
      exact ⟨p, List.mem_cons_of_mem _ hp, hv⟩

/-- The column loop of the store-level builder commutes with the shift
translation when the flat row only holds pre-existing values. -/
theorem buildNestedGoS_sim (σ0 J : SStore) (hcl0 : ClosedBelow σ0 σ0.length)
    (fuel : Nat) (flat : SNode)
    (hflat : ∀ p ∈ flat, ∀ r, p.2 = .mref r → r < σ0.length) :
    ∀ cols K rootR σA2 res,
      ClosedBelow (σ0 ++ K) (σ0.length + K.length) →
      buildNestedGoS fuel flat (σ0 ++ K) rootR cols = (σA2, res) →
      ∃ K2, σA2 = σ0 ++ K2 ∧
        ClosedBelow (σ0 ++ K2) (σ0.length + K2.length) ∧
        K.length ≤ K2.length ∧
        buildNestedGoS fuel flat (σ0 ++ J ++ shiftK σ0.length J.length K)
            (shiftR σ0.length J.length rootR) cols
          = (σ0 ++ J ++ shiftK σ0.length J.length K2, shiftE σ0.length J.length res) := by
  intro cols
  induction cols with
  | nil =>
    intro K rootR σA2 res hclK hrun
    simp only [buildNestedGoS] at hrun
    injection hrun with h1 h2
    subst h1
    subst h2
    exact ⟨K, rfl, hclK, Nat.le_refl _, rfl⟩
  | cons col rest ih =>
    intro K rootR σA2 res hclK hrun
    simp only [buildNestedGoS] at hrun
    cases hlf : lookupS flat col.name with
    | none =>
      simp only [hlf] at hrun
      obtain ⟨K2, hA, hcl2, hle2, hB⟩ := ih K rootR σA2 res hclK hrun
      refine ⟨K2, hA, hcl2, hle2, ?_⟩
      simp only [buildNestedGoS, hlf]
      exact hB
    | some value =>
      simp only [hlf] at hrun
      have hvcl : ∀ r, value = .mref r → r < σ0.length := by
        intro r hr
        obtain ⟨p, hp, hv⟩ := lookupS_mem flat col.name value hlf
        exact hflat p hp r (hv.symm ▸ hr)
      rcases hmv : mergeNestedValueS fuel (σ0 ++ K) rootR
          (col.outputPath.getD [.str col.name]) value with ⟨σm, resm⟩
      simp only [hmv] at hrun
      obtain ⟨K2m, hAm, hclm, hlem, hokm, hBm⟩ :=
        mergeNestedValueS_sim σ0 J hcl0 fuel K rootR
          (col.outputPath.getD [.str col.name]) value σm resm hclK
          (fun r hr => by have := hvcl r hr; omega) hmv
      subst hAm
      have hBm' : mergeNestedValueS fuel (σ0 ++ J ++ shiftK σ0.length J.length K)
          (shiftR σ0.length J.length rootR) (col.outputPath.getD [.str col.name]) value
            = (σ0 ++ J ++ shiftK σ0.length J.length K2m,
              shiftE σ0.length J.length resm) := by
        rw [← shiftV_closed σ0.length J.length value hvcl]
        exact hBm
      cases resm with
      | error e =>
        injection hrun with h1 h2
        subst h1
        subst h2
        refine ⟨K2m, rfl, hclm, hlem, ?_⟩
        simp only [buildNestedGoS, hlf, hBm']
        rfl
      | ok r2 =>
        obtain ⟨K2, hA, hcl2, hle2, hB⟩ := ih K2m r2 σA2 res hclm hrun
        refine ⟨K2, hA, hcl2, by omega, ?_⟩
        simp only [buildNestedGoS, hlf, hBm']
        simp only [shiftE]
        exact hB

/-- Store-level buildNestedData commutes with the shift translation. -/
theorem buildNestedDataS_sim (σ0 J : SStore) (hcl0 : ClosedBelow σ0 σ0.length)
    (fuel : Nat) (flat : SNode)
    (hflat : ∀ p ∈ flat, ∀ r, p.2 = .mref r → r < σ0.length)
    (cols : List OutColumn) (K : SStore) (σA2 : SStore) (res : Except String Nat)
    (hclK : ClosedBelow (σ0 ++ K) (σ0.length + K.length))
    (hrun : buildNestedDataS fuel (σ0 ++ K) flat cols = (σA2, res)) :
    ∃ K2, σA2 = σ0 ++ K2 ∧
      ClosedBelow (σ0 ++ K2) (σ0.length + K2.length) ∧
      K.length ≤ K2.length ∧
      buildNestedDataS fuel (σ0 ++ J ++ shiftK σ0.length J.length K) flat cols
        = (σ0 ++ J ++ shiftK σ0.length J.length K2, shiftE σ0.length J.length res) := by
  unfold buildNestedDataS at hrun ⊢
  rw [List.append_assoc, List.length_append] at hrun
  have hclKa : ClosedBelow (σ0 ++ (K ++ [[]])) (σ0.length + (K ++ [[]]).length) := by
    rw [← List.append_assoc]
    simp only [List.length_append, List.length_singleton]
    exact closedBelow_mono (closedBelow_append hclK (by intro p hp; simp at hp))
      (by omega)
  obtain ⟨K2, hA, hcl2, hle2, hB⟩ :=
    buildNestedGoS_sim σ0 J hcl0 fuel flat hflat cols (K ++ [[]])
      (σ0.length + K.length) σA2 res hclKa hrun
  have hle2' : K.length + 1 ≤ K2.length := by
    have := hle2
    simp only [List.length_append, List.length_singleton] at this
    omega
  refine ⟨K2, hA, hcl2, by omega, ?_⟩
  rw [length_simB,
    show σ0.length + J.length + K.length
      = shiftR σ0.length J.length (σ0.length + K.length) from by
        rw [shiftR_ge _ _ _ (by omega)]; omega]
  have happ : σ0 ++ J ++ shiftK σ0.length J.length K ++ [([] : SNode)]
      = σ0 ++ J ++ shiftK σ0.length J.length (K ++ [[]]) := appendN_sim σ0 J K []
  rw [happ]
  exact hB

/-! ### Run-twice determinism -/

/-- Running mergeNestedValue a second time, from the first run's final
store and with the same inputs, fails with the same error or produces an
output extracting to the same data tree. -/
theorem mergeNestedValueS_runTwice (fuel : Nat) (σ : SStore) (rootR : Nat)
    (path : List RawSeg) (value : SVal)
    (hcl : ClosedBelow σ σ.length)
    (hroot : rootR < σ.length)
    (hval : ∀ r, value = .mref r → r < σ.length) :
    (∀ e, (mergeNestedValueS fuel σ rootR path value).2 = .error e →
      (mergeNestedValueS fuel (mergeNestedValueS fuel σ rootR path value).1
        rootR path value).2 = .error e) ∧
    (∀ r1, (mergeNestedValueS fuel σ rootR path value).2 = .ok r1 →
      ∃ r2, (mergeNestedValueS fuel (mergeNestedValueS fuel σ rootR path value).1
          rootR path value).2 = .ok r2 ∧
        ∀ ef, extractS ef (mergeNestedValueS fuel (mergeNestedValueS fuel σ rootR
            path value).1 rootR path value).1 (.mref r2)
          = extractS ef (mergeNestedValueS fuel σ rootR path value).1 (.mref r1)) := by
  rcases h1 : mergeNestedValueS fuel σ rootR path value with ⟨σ1, res1⟩
  have hfr := mergeNestedValueS_frame fuel σ rootR path value
  rw [h1] at hfr
  have hsplit := storeSplit σ σ1 hfr.1 hfr.2
  have hrun0 : mergeNestedValueS fuel (σ ++ ([] : SStore)) rootR path value
      = (σ1, res1) := by
    rw [List.append_nil]
    exact h1
  have hclK0 : ClosedBelow (σ ++ ([] : SStore))
      (σ.length + ([] : SStore).length) := by
    rw [List.append_nil]
    simpa using hcl
  obtain ⟨K2, hA, hcl2, _, _, hB⟩ :=
    mergeNestedValueS_sim σ (σ1.drop σ.length) hcl fuel [] rootR path value σ1 res1
      hclK0 (fun r hr => by simpa using hval r hr) hrun0
  have hK2 : K2 = σ1.drop σ.length :=
    List.append_cancel_left (hA.symm.trans hsplit)
  subst hK2
  have hsR : shiftR σ.length (σ1.drop σ.length).length rootR = rootR := by
    simp [shiftR, hroot]
  rw [hsR, shiftV_closed _ _ value hval] at hB
  have hstore : σ ++ σ1.drop σ.length
      ++ shiftK σ.length (σ1.drop σ.length).length [] = σ1 := by
    rw [show shiftK σ.length (σ1.drop σ.length).length [] = ([] : SStore) from rfl,
      List.append_nil, ← hsplit]
  rw [hstore] at hB
  have hB2 : mergeNestedValueS fuel σ1 rootR path value
      = (σ ++ σ1.drop σ.length ++ shiftK σ.length (σ1.drop σ.length).length
          (σ1.drop σ.length),
        shiftE σ.length (σ1.drop σ.length).length res1) := hB
  constructor
  · intro e he
    simp only [h1] at he ⊢
    subst he
    simp only [hB2]
    rfl
  · intro r1 hr1
    simp only [h1] at hr1 ⊢
    subst hr1
    refine ⟨shiftR σ.length (σ1.drop σ.length).length r1, ?_, ?_⟩
    · simp only [hB2]
      rfl
    · intro ef
      simp only [hB2]
      have := extractS_sim σ (σ1.drop σ.length) hcl ef (σ1.drop σ.length) (.mref r1)
      rw [← hsplit] at this ⊢
      exact this

/-- Running buildNestedData a second time, from the first run's final
store and with the same flat row and columns, fails with the same error or
produces an output extracting to the same data tree. -/
theorem buildNestedDataS_runTwice (fuel : Nat) (σ : SStore) (flat : SNode)
    (cols : List OutColumn)
    (hcl : ClosedBelow σ σ.length)
    (hflat : ∀ p ∈ flat, ∀ r, p.2 = .mref r → r < σ.length) :
    (∀ e, (buildNestedDataS fuel σ flat cols).2 = .error e →
      (buildNestedDataS fuel (buildNestedDataS fuel σ flat cols).1 flat cols).2
        = .error e) ∧
    (∀ r1, (buildNestedDataS fuel σ flat cols).2 = .ok r1 →
      ∃ r2, (buildNestedDataS fuel (buildNestedDataS fuel σ flat cols).1 flat cols).2
          = .ok r2 ∧
        ∀ ef, extractS ef (buildNestedDataS fuel
            (buildNestedDataS fuel σ flat cols).1 flat cols).1 (.mref r2)
          = extractS ef (buildNestedDataS fuel σ flat cols).1 (.mref r1)) := by
  rcases h1 : buildNestedDataS fuel σ flat cols with ⟨σ1, res1⟩
  have hfr := buildNestedDataS_frame fuel σ flat cols
  rw [h1] at hfr
  have hsplit := storeSplit σ σ1 hfr.1 hfr.2
  have hrun0 : buildNestedDataS fuel (σ ++ ([] : SStore)) flat cols = (σ1, res1) := by
    rw [List.append_nil]
    exact h1
  have hclK0 : ClosedBelow (σ ++ ([] : SStore))
      (σ.length + ([] : SStore).length) := by
    rw [List.append_nil]
    simpa using hcl
  obtain ⟨K2, hA, hcl2, _, hB⟩ :=
    buildNestedDataS_sim σ (σ1.drop σ.length) hcl fuel flat hflat cols [] σ1 res1
      hclK0 hrun0
  have hK2 : K2 = σ1.drop σ.length :=
    List.append_cancel_left (hA.symm.trans hsplit)
  subst hK2
  have hstore : σ ++ σ1.drop σ.length
      ++ shiftK σ.length (σ1.drop σ.length).length [] = σ1 := by
    rw [show shiftK σ.length (σ1.drop σ.length).length [] = ([] : SStore) from rfl,
      List.append_nil, ← hsplit]
  rw [hstore] at hB
  have hB2 : buildNestedDataS fuel σ1 flat cols
      = (σ ++ σ1.drop σ.length ++ shiftK σ.length (σ1.drop σ.length).length
          (σ1.drop σ.length),
        shiftE σ.length (σ1.drop σ.length).length res1) := hB
  constructor
  · intro e he
    simp only [h1] at he ⊢
    subst he
    simp only [hB2]
    rfl
  · intro r1 hr1
    simp only [h1] at hr1 ⊢
    subst hr1
    refine ⟨shiftR σ.length (σ1.drop σ.length).length r1, ?_, ?_⟩
    · simp only [hB2]
      rfl
    · intro ef
      simp only [hB2]
      have := extractS_sim σ (σ1.drop σ.length) hcl ef (σ1.drop σ.length) (.mref r1)
      rw [← hsplit] at this ⊢
      exact this

/-- C7 (confirmed): nested-build purity.  At the reference level of Go's
mutable maps, mergeMaps, mergeNestedValue and buildNestedData never write
a node that existed before the call — the input root map, the input value
and every nested sub-map of either are left unmodified, and every node the
merge fills in is a freshly allocated copy; and running mergeNestedValue
or buildNestedData a second time with the same inputs, from the store the
first run produced, fails with the same error or returns an output whose
extracted data tree is structurally equal to the first output's. -/
theorem C7_nested_build_purity :
    (∀ fuel σ destR srcR, FrameExt σ (mergeMapsS fuel σ destR srcR).1) ∧
    (∀ fuel σ rootR path value,
      FrameExt σ (mergeNestedValueS fuel σ rootR path value).1) ∧
    (∀ fuel σ flat cols, FrameExt σ (buildNestedDataS fuel σ flat cols).1) ∧
    (∀ fuel σ rootR path value,
      ClosedBelow σ σ.length →
      rootR < σ.length →
      (∀ r, value = .mref r → r < σ.length) →
      (∀ e, (mergeNestedValueS fuel σ rootR path value).2 = .error e →
        (mergeNestedValueS fuel (mergeNestedValueS fuel σ rootR path value).1
          rootR path value).2 = .error e) ∧
      (∀ r1, (mergeNestedValueS fuel σ rootR path value).2 = .ok r1 →
        ∃ r2, (mergeNestedValueS fuel (mergeNestedValueS fuel σ rootR path value).1
            rootR path value).2 = .ok r2 ∧
          ∀ ef, extractS ef (mergeNestedValueS fuel (mergeNestedValueS fuel σ rootR
              path value).1 rootR path value).1 (.mref r2)
            = extractS ef (mergeNestedValueS fuel σ rootR path value).1 (.mref r1))) ∧
    (∀ fuel σ flat cols,
      ClosedBelow σ σ.length →
      (∀ p ∈ flat, ∀ r, p.2 = .mref r → r < σ.length) →
      (∀ e, (buildNestedDataS fuel σ flat cols).2 = .error e →
        (buildNestedDataS fuel (buildNestedDataS fuel σ flat cols).1 flat cols).2
          = .error e) ∧
      (∀ r1, (buildNestedDataS fuel σ flat cols).2 = .ok r1 →
        ∃ r2, (buildNestedDataS fuel (buildNestedDataS fuel σ flat cols).1
            flat cols).2 = .ok r2 ∧
          ∀ ef, extractS ef (buildNestedDataS fuel
              (buildNestedDataS fuel σ flat cols).1 flat cols).1 (.mref r2)
            = extractS ef (buildNestedDataS fuel σ flat cols).1 (.mref r1))) :=
  ⟨mergeMapsS_frame,
    fun fuel σ rootR path value => mergeNestedValueS_frame fuel σ rootR path value,
    fun fuel σ flat cols => buildNestedDataS_frame fuel σ flat cols,
    fun fuel σ rootR path value hcl hroot hval =>
      mergeNestedValueS_runTwice fuel σ rootR path value hcl hroot hval,
    fun fuel σ flat cols hcl hflat =>
      buildNestedDataS_runTwice fuel σ flat cols hcl hflat⟩

/-- Witness: on the empty store with the flat row {c ↦ "x"} and the single
column c, the first build returns node 1, the second run (from the first
run's store) returns node 3, and both extract to the same data tree. -/
theorem C7_nested_build_purity_witness :
    (buildNestedDataS 3 ([] : SStore) [("c", SVal.scalar (.S "x"))]
      [⟨"c", none⟩]).2 = .ok 1 ∧
    (∃ r2, (buildNestedDataS 3 (buildNestedDataS 3 ([] : SStore)
          [("c", SVal.scalar (.S "x"))] [⟨"c", none⟩]).1
          [("c", SVal.scalar (.S "x"))] [⟨"c", none⟩]).2 = .ok r2 ∧
      ∀ ef, extractS ef (buildNestedDataS 3 (buildNestedDataS 3 ([] : SStore)
            [("c", SVal.scalar (.S "x"))] [⟨"c", none⟩]).1
            [("c", SVal.scalar (.S "x"))] [⟨"c", none⟩]).1 (.mref r2)
        = extractS ef (buildNestedDataS 3 ([] : SStore)
            [("c", SVal.scalar (.S "x"))] [⟨"c", none⟩]).1 (.mref 1)) :=
  ⟨rfl,
    (C7_nested_build_purity.2.2.2.2 3 [] [("c", SVal.scalar (.S "x"))] [⟨"c", none⟩]
      (by intro i p hp r hr; simp [readN] at hp)
      (by
        intro p hp r hr
        simp only [List.mem_singleton] at hp
        subst hp
        exact SVal.noConfusion hr)).2 1 rfl⟩

end MC
